import Mathlib

/-!
Verification of the sentinel-ring deque (`src/lectures/lec18/src/Sentinel.h`)
and the persistent environment (`src/lectures/lec20/src/env.h`).

The deque is a doubly-linked ring of heap nodes closed by an embedded
sentinel cell. We embed it shallowly: a `Heap` maps addresses (`Nat`,
with `0` playing the role of `nullptr`) to cells; a `Deque` is the pair of
its embedded sentinel's address and its `size_` counter, exactly the two
data members of `Deque<T>`. Every operation below is a line-by-line
translation of the corresponding member function of `Sentinel.h`,
threading the heap explicitly. Element type `T` is instantiated at `Int`.
-/

namespace Sentinel

/-- One list cell. `node_base_` has `prev`/`next` (Sentinel.h:126-134);
`node_` adds the `data` element (Sentinel.h:138-148). A sentinel cell is a
bare `node_base_`, modelled by `data = none`; a data node carries
`data = some v`. Address `0` stands for `nullptr`. -/
structure Cell where
  prev : Nat
  next : Nat
  data : Option Int
  deriving DecidableEq, Repr

/-- The heap: an association list from addresses to live cells (newest
binding first, so `write` shadows) together with the next fresh address.
`new` hands out `fresh`; `delete` removes the address's bindings. -/
structure Heap where
  mem : List (Nat × Cell)
  fresh : Nat
  deriving DecidableEq, Repr

namespace Heap

/-- Read the cell at an address, `none` when nothing live is there. -/
def get (h : Heap) (a : Nat) : Option Cell := h.mem.lookup a

/-- Overwrite the cell at an address. -/
def write (h : Heap) (a : Nat) (c : Cell) : Heap := ⟨(a, c) :: h.mem, h.fresh⟩

/-- Model of `delete`: drop every binding of the address. -/
def free (h : Heap) (a : Nat) : Heap :=
  ⟨h.mem.filter (fun p => p.1 != a), h.fresh⟩

/-- Model of `new node_(args)`: a fresh address holding a cell whose links
start at `nullptr` (Sentinel.h:128-129, 144-147). -/
def alloc (h : Heap) (v : Option Int) : Nat × Heap :=
  (h.fresh, ⟨(h.fresh, ⟨0, 0, v⟩) :: h.mem, h.fresh + 1⟩)

/-- The `prev` field of the cell at `a` (garbage `0` when dangling). -/
def prevOf (h : Heap) (a : Nat) : Nat := ((h.get a).getD ⟨0, 0, none⟩).prev

/-- The `next` field of the cell at `a` (garbage `0` when dangling). -/
def nextOf (h : Heap) (a : Nat) : Nat := ((h.get a).getD ⟨0, 0, none⟩).next

/-- The `data` field of the cell at `a` (`none` at a sentinel or when
dangling; dereferencing there is undefined behavior in the source). -/
def dataOf (h : Heap) (a : Nat) : Option Int := ((h.get a).getD ⟨0, 0, none⟩).data

/-- Assignment `a->prev = p` (a no-op on a dangling address, which the
source never does on the states we consider). -/
def setPrev (h : Heap) (a p : Nat) : Heap :=
  match h.get a with
  | some c => h.write a ⟨p, c.next, c.data⟩
  | none => h

/-- Assignment `a->next = n`. -/
def setNext (h : Heap) (a n : Nat) : Heap :=
  match h.get a with
  | some c => h.write a ⟨c.prev, n, c.data⟩
  | none => h

theorem get_write_self (h : Heap) (a : Nat) (c : Cell) :
    (h.write a c).get a = some c := by
  simp [get, write, List.lookup]

theorem get_write_ne (h : Heap) (a b : Nat) (c : Cell) (hba : b ≠ a) :
    (h.write a c).get b = h.get b := by
  simp [get, write, List.lookup, beq_eq_false_iff_ne.mpr hba]

theorem fresh_write (h : Heap) (a : Nat) (c : Cell) :
    (h.write a c).fresh = h.fresh := rfl

theorem lookup_filter_ne (l : List (Nat × Cell)) (a b : Nat) (hba : b ≠ a) :
    (l.filter (fun p => p.1 != a)).lookup b = l.lookup b := by
  induction l with
  | nil => rfl
  | cons p l ih =>
    by_cases hp : p.1 = a
    · have : (p.1 != a) = false := by simp [hp]
      simp [List.filter, this, List.lookup, ih,
        beq_eq_false_iff_ne.mpr (hp ▸ hba)]
    · have : (p.1 != a) = true := by simp [hp]
      by_cases hbp : b = p.1
      · simp [List.filter, this, List.lookup, hbp]
      · simp [List.filter, this, List.lookup,
          beq_eq_false_iff_ne.mpr hbp, ih]

theorem get_free_ne (h : Heap) (a b : Nat) (hba : b ≠ a) :
    (h.free a).get b = h.get b := by
  simp [get, free, lookup_filter_ne _ _ _ hba]

theorem get_free_self (h : Heap) (a : Nat) : (h.free a).get a = none := by
  simp only [get, free]
  induction h.mem with
  | nil => rfl
  | cons p l ih =>
    by_cases hp : p.1 = a
    · have : (p.1 != a) = false := by simp [hp]
      simpa [List.filter, this] using ih
    · have : (p.1 != a) = true := by simp [hp]
      simpa [List.filter, this, List.lookup,
        beq_eq_false_iff_ne.mpr (Ne.symm hp)] using ih

theorem fresh_free (h : Heap) (a : Nat) : (h.free a).fresh = h.fresh := rfl

theorem alloc_fst (h : Heap) (v : Option Int) : (h.alloc v).1 = h.fresh := rfl

theorem get_alloc_self (h : Heap) (v : Option Int) :
    (h.alloc v).2.get h.fresh = some ⟨0, 0, v⟩ := by
  simp [get, alloc, List.lookup]

theorem get_alloc_ne (h : Heap) (v : Option Int) (b : Nat) (hb : b ≠ h.fresh) :
    (h.alloc v).2.get b = h.get b := by
  simp [get, alloc, List.lookup, beq_eq_false_iff_ne.mpr hb]

theorem fresh_alloc (h : Heap) (v : Option Int) :
    (h.alloc v).2.fresh = h.fresh + 1 := rfl

theorem get_setPrev_self (h : Heap) (a p : Nat) (c : Cell)
    (hc : h.get a = some c) :
    (h.setPrev a p).get a = some ⟨p, c.next, c.data⟩ := by
  simp [setPrev, hc, get_write_self]

theorem get_setPrev_ne (h : Heap) (a p b : Nat) (hba : b ≠ a) :
    (h.setPrev a p).get b = h.get b := by
  unfold setPrev
  cases h.get a with
  | none => rfl
  | some c => exact get_write_ne _ _ _ _ hba

theorem fresh_setPrev (h : Heap) (a p : Nat) :
    (h.setPrev a p).fresh = h.fresh := by
  unfold setPrev
  cases h.get a with
  | none => rfl
  | some c => rfl

theorem get_setNext_self (h : Heap) (a n : Nat) (c : Cell)
    (hc : h.get a = some c) :
    (h.setNext a n).get a = some ⟨c.prev, n, c.data⟩ := by
  simp [setNext, hc, get_write_self]

theorem get_setNext_ne (h : Heap) (a n b : Nat) (hba : b ≠ a) :
    (h.setNext a n).get b = h.get b := by
  unfold setNext
  cases h.get a with
  | none => rfl
  | some c => exact get_write_ne _ _ _ _ hba

theorem fresh_setNext (h : Heap) (a n : Nat) :
    (h.setNext a n).fresh = h.fresh := by
  unfold setNext
  cases h.get a with
  | none => rfl
  | some c => rfl

end Heap

/-- An empty heap whose first usable address is `1` (so `0` can stand for
`nullptr`). -/
def emptyHeap : Heap := ⟨[], 1⟩

/-- The two data members of `Deque<T>` (Sentinel.h:150-152): the address of
the embedded sentinel cell `sentinel_` (each deque object has its own,
fixed for the object's lifetime) and the element counter `size_`. -/
structure Deque where
  sentinel_ : Nat
  size_ : Nat
  deriving DecidableEq, Repr

namespace Deque

/-- `empty()` (Sentinel.h:339-343): `size_ == 0`. -/
def empty (d : Deque) : Bool := d.size_ == 0

/-- `size()` (Sentinel.h:345-349). -/
def size (d : Deque) : Nat := d.size_

/-- `head_()` (Sentinel.h:263-267): `sentinel_.next`, downcast to `node_`. -/
def head_ (d : Deque) (h : Heap) : Nat := h.nextOf d.sentinel_

/-- `tail_()` (Sentinel.h:269-273): `sentinel_.prev`, downcast to `node_`. -/
def tail_ (d : Deque) (h : Heap) : Nat := h.prevOf d.sentinel_

/-- `front()` (Sentinel.h:351-361): `head_()->data`. Reading the data of a
sentinel yields `none`, modelling the undefined behavior on an empty
deque. -/
def front (d : Deque) (h : Heap) : Option Int := h.dataOf (d.head_ h)

/-- `back()` (Sentinel.h:363-373): `tail_()->data`. -/
def back (d : Deque) (h : Heap) : Option Int := h.dataOf (d.tail_ h)

/-- `set_empty_()` (Sentinel.h:275-280): zero the size and make the
sentinel self-linked. -/
def set_empty_ (d : Deque) (h : Heap) : Deque × Heap :=
  (⟨d.sentinel_, 0⟩, h.write d.sentinel_ ⟨d.sentinel_, d.sentinel_, none⟩)

/-- `move_from_(Deque&& other)` (Sentinel.h:282-292). When `other` is
non-empty it copies `other.sentinel_`'s two links and the size counter,
then resets `other`; the source performs no further relinking. Returns
(this, other, heap) after the call. -/
def move_from_ (d other : Deque) (h : Heap) : Deque × Deque × Heap :=
  if other.size_ = 0 then
    let (d', h') := d.set_empty_ h
    (d', other, h')
  else
    let oc := (h.get other.sentinel_).getD ⟨0, 0, none⟩
    let h1 := h.write d.sentinel_ ⟨oc.prev, oc.next, none⟩
    let d' : Deque := ⟨d.sentinel_, other.size_⟩
    let (other', h2) := other.set_empty_ h1
    (d', other', h2)

/-- `push_front_(node_*)` (Sentinel.h:375-383): splice an already
allocated node right after the sentinel, then `++size_`. The four link
assignments are performed in source order. -/
def push_front_ (d : Deque) (h : Heap) (nn : Nat) : Deque × Heap :=
  let h1 := h.setNext nn (h.nextOf d.sentinel_)
  let h2 := h1.setPrev nn d.sentinel_
  let h3 := h2.setPrev (h2.nextOf nn) nn
  let h4 := h3.setNext (h3.prevOf nn) nn
  (⟨d.sentinel_, d.size_ + 1⟩, h4)

/-- `push_back_(node_*)` (Sentinel.h:404-412): splice an already allocated
node right before the sentinel, then `++size_`. -/
def push_back_ (d : Deque) (h : Heap) (nn : Nat) : Deque × Heap :=
  let h1 := h.setPrev nn (h.prevOf d.sentinel_)
  let h2 := h1.setNext nn d.sentinel_
  let h3 := h2.setPrev (h2.nextOf nn) nn
  let h4 := h3.setNext (h3.prevOf nn) nn
  (⟨d.sentinel_, d.size_ + 1⟩, h4)

/-- `push_front(value)` (Sentinel.h:385-395): `push_front_(new node_(value))`.
The node is fully allocated and constructed before any link is touched. -/
def push_front (d : Deque) (h : Heap) (v : Int) : Deque × Heap :=
  let (nn, h1) := h.alloc (some v)
  d.push_front_ h1 nn

/-- `push_back(value)` (Sentinel.h:414-424): `push_back_(new node_(value))`. -/
def push_back (d : Deque) (h : Heap) (v : Int) : Deque × Heap :=
  let (nn, h1) := h.alloc (some v)
  d.push_back_ h1 nn

/-- `pop_front()` (Sentinel.h:433-444): read the head and its successor,
`delete` the head, relink the sentinel and the new head, `--size_`. -/
def pop_front (d : Deque) (h : Heap) : Deque × Heap :=
  let hd := d.head_ h
  let newHead := h.nextOf hd
  let h1 := h.free hd
  let h2 := h1.setNext d.sentinel_ newHead
  let h3 := h2.setPrev newHead d.sentinel_
  (⟨d.sentinel_, d.size_ - 1⟩, h3)

/-- `pop_back()` (Sentinel.h:446-457). -/
def pop_back (d : Deque) (h : Heap) : Deque × Heap :=
  let tl := d.tail_ h
  let newTail := h.prevOf tl
  let h1 := h.free tl
  let h2 := h1.setPrev d.sentinel_ newTail
  let h3 := h2.setNext newTail d.sentinel_
  (⟨d.sentinel_, d.size_ - 1⟩, h3)

/-- The loop of `clear()` (Sentinel.h:459-463): `while (!empty())
pop_front();`, fuelled by the iteration count. -/
def clearGo : Nat → Deque → Heap → Deque × Heap
  | 0, d, h => (d, h)
  | fuel + 1, d, h =>
    if d.size_ = 0 then (d, h)
    else
      let (d', h') := d.pop_front h
      clearGo fuel d' h'

/-- `clear()` (Sentinel.h:459-463). Each `pop_front` decrements `size_`,
so the loop runs exactly `size_` times; `size_` is a sufficient fuel. -/
def clear (d : Deque) (h : Heap) : Deque × Heap := clearGo d.size_ d h

/-- The default constructor (Sentinel.h:294-298): pick a fresh address for
the embedded sentinel and `set_empty_()`. -/
def mkNew (h : Heap) : Deque × Heap :=
  let (s, h1) := h.alloc none
  set_empty_ ⟨s, 0⟩ h1

/-- The move constructor (Sentinel.h:325-329): fresh storage for the new
object's embedded sentinel (its links default to `nullptr`,
Sentinel.h:128-129), then `move_from_(other)`. Returns (this, other, heap). -/
def moveConstruct (other : Deque) (h : Heap) : Deque × Deque × Heap :=
  let (s, h1) := h.alloc none
  move_from_ ⟨s, 0⟩ other h1

/-- The move-assignment operator (Sentinel.h:331-337): `clear()` then
`move_from_(other)`. Returns (this, other, heap). -/
def move_assign (d other : Deque) (h : Heap) : Deque × Deque × Heap :=
  let (d1, h1) := d.clear h
  move_from_ d1 other h1

/-- The body of the range-for of the copy operations (Sentinel.h:308-323):
iterate a `const_iterator` from `cur` to `stop` (= `other.end()`, the
address of `other`'s sentinel), pushing each visited element onto `d`.
The iterator's `++` reads `current_->next` after the `push_back`, as the
loop does. `fuel` bounds the iteration; the loop itself stops only at
`stop`. -/
def copyRange : Nat → Deque → Heap → Nat → Nat → Deque × Heap
  | 0, d, h, _, _ => (d, h)
  | fuel + 1, d, h, cur, stop =>
    if cur = stop then (d, h)
    else
      let v := (h.dataOf cur).getD 0
      let (d', h') := d.push_back h v
      copyRange fuel d' h' (h'.nextOf cur) stop

/-- The copy-assignment operator (Sentinel.h:314-323): `clear()` first,
then push back every element of `other`, traversing `other` from its
`begin()` (read after the clear, as the range-for does) to its `end()`. -/
def copy_assign (d other : Deque) (h : Heap) (fuel : Nat) : Deque × Heap :=
  let (d1, h1) := d.clear h
  copyRange fuel d1 h1 (h1.nextOf other.sentinel_) other.sentinel_

/-- `swap(Deque& other)` (Sentinel.h:468-483). When either side is empty
it falls back on `move_from_`; otherwise the two sentinel cells' link
values and the sizes are exchanged and the four boundary nodes are
re-pointed at the correct sentinel. Returns (this, other, heap). -/
def swap (d other : Deque) (h : Heap) : Deque × Deque × Heap :=
  if d.size_ = 0 then d.move_from_ other h
  else if other.size_ = 0 then
    let (o', d', h') := other.move_from_ d h
    (d', o', h')
  else
    let sc := (h.get d.sentinel_).getD ⟨0, 0, none⟩
    let oc := (h.get other.sentinel_).getD ⟨0, 0, none⟩
    let h1 := (h.write d.sentinel_ ⟨oc.prev, oc.next, none⟩).write
      other.sentinel_ ⟨sc.prev, sc.next, none⟩
    let d' : Deque := ⟨d.sentinel_, other.size_⟩
    let o' : Deque := ⟨other.sentinel_, d.size_⟩
    let h2 := h1.setPrev (h1.nextOf d.sentinel_) d.sentinel_
    let h3 := h2.setNext (h2.prevOf d.sentinel_) d.sentinel_
    let h4 := h3.setPrev (h3.nextOf other.sentinel_) other.sentinel_
    let h5 := h4.setNext (h4.prevOf other.sentinel_) other.sentinel_
    (d', o', h5)

/-- Repeated `push_back`, used by the `initializer_list` constructor. -/
def pushBackAll : Deque → Heap → List Int → Deque × Heap
  | d, h, [] => (d, h)
  | d, h, v :: vs =>
    let (d', h') := d.push_back h v
    pushBackAll d' h' vs

/-- Repeated `push_front`. -/
def pushFrontAll : Deque → Heap → List Int → Deque × Heap
  | d, h, [] => (d, h)
  | d, h, v :: vs =>
    let (d', h') := d.push_front h v
    pushFrontAll d' h' vs

/-- The `initializer_list` constructor (Sentinel.h:300-305): the default
constructor followed by `push_back` of each element in order. -/
def ofList (h : Heap) (vs : List Int) : Deque × Heap :=
  let (d, h1) := mkNew h
  pushBackAll d h1 vs

end Deque

/-- Forward iterator traversal (Sentinel.h:582-586, 612-615): starting at
`cur`, repeatedly dereference and follow `next` until the cursor equals
`stop` (the deque's `end()`, i.e. the address of its own sentinel).
Returns the values visited, `none` if a dataless cell is dereferenced or
`stop` is not reached within `fuel` steps. -/
def traverseFrom (h : Heap) (stop : Nat) : Nat → Nat → Option (List Int)
  | cur, 0 => if cur = stop then some [] else none
  | cur, fuel + 1 =>
    if cur = stop then some []
    else
      match h.get cur with
      | some ⟨_, nx, some v⟩ => (traverseFrom h stop nx fuel).map (fun l => v :: l)
      | _ => none

/-- The element sequence of a deque as produced by a full forward
traversal from `begin()` (= `sentinel_.next`) to `end()` (= the address
of the deque's own sentinel): a ring of `size_` data cells is traversed
in exactly `size_` steps. -/
def Deque.contents (d : Deque) (h : Heap) : Option (List Int) :=
  traverseFrom h d.sentinel_ (h.nextOf d.sentinel_) d.size_

/-- Unconditional description of `get` after `write`. -/
theorem Heap.get_write (h : Heap) (a : Nat) (c : Cell) (b : Nat) :
    (h.write a c).get b = if b = a then some c else h.get b := by
  by_cases hb : b = a
  · subst hb; simp [get_write_self]
  · simp [hb, get_write_ne _ _ _ _ hb]

/-- Unconditional description of `get` after `free`. -/
theorem Heap.get_free (h : Heap) (a b : Nat) :
    (h.free a).get b = if b = a then none else h.get b := by
  by_cases hb : b = a
  · subst hb; simp [get_free_self]
  · simp [hb, get_free_ne _ _ _ hb]

/-- Unconditional description of `get` after `alloc`. -/
theorem Heap.get_alloc (h : Heap) (v : Option Int) (b : Nat) :
    (h.alloc v).2.get b = if b = h.fresh then some ⟨0, 0, v⟩ else h.get b := by
  by_cases hb : b = h.fresh
  · subst hb; simp [get_alloc_self]
  · simp [hb, get_alloc_ne _ _ _ hb]

/-- Unconditional description of `get` after `setPrev`. -/
theorem Heap.get_setPrev (h : Heap) (a p b : Nat) :
    (h.setPrev a p).get b =
      if b = a then (h.get a).map (fun c => ⟨p, c.next, c.data⟩) else h.get b := by
  by_cases hb : b = a
  · subst hb
    unfold setPrev
    cases hc : h.get b with
    | none => simp [hc]
    | some c => simp [hc, get_write_self]
  · simp [hb, get_setPrev_ne _ _ _ _ hb]

/-- Unconditional description of `get` after `setNext`. -/
theorem Heap.get_setNext (h : Heap) (a n b : Nat) :
    (h.setNext a n).get b =
      if b = a then (h.get a).map (fun c => ⟨c.prev, n, c.data⟩) else h.get b := by
  by_cases hb : b = a
  · subst hb
    unfold setNext
    cases hc : h.get b with
    | none => simp [hc]
    | some c => simp [hc, get_write_self]
  · simp [hb, get_setNext_ne _ _ _ _ hb]

/-- The doubly-linked segment predicate: walking the addresses `ns`, the
cell at `ns[i]` is exactly `⟨predecessor, successor, value⟩`, where the
predecessor of the first cell is `p` and the successor of the last cell
is `q`. Applied with `p = q = sentinel` it states the deque's ring
invariant: every adjacent pair's `prev`/`next` are mutual inverses and the
ring closes at the sentinel. -/
def isChainB (h : Heap) : Nat → List Nat → List Int → Nat → Bool
  | _, [], [], _ => true
  | p, n :: ns, v :: vs, q =>
    decide (h.get n = some ⟨p, ns.headD q, some v⟩) && isChainB h n ns vs q
  | _, _, _, _ => false

theorem isChainB_nil (h : Heap) (p q : Nat) : isChainB h p [] [] q = true := rfl

theorem isChainB_cons (h : Heap) (p q n : Nat) (ns : List Nat) (v : Int)
    (vs : List Int) :
    isChainB h p (n :: ns) (v :: vs) q =
      (decide (h.get n = some ⟨p, ns.headD q, some v⟩) && isChainB h n ns vs q) :=
  rfl

theorem isChainB_nil_cons (h : Heap) (p q : Nat) (v : Int) (vs : List Int) :
    isChainB h p [] (v :: vs) q = false := rfl

theorem isChainB_cons_nil (h : Heap) (p q n : Nat) (ns : List Nat) :
    isChainB h p (n :: ns) [] q = false := rfl

/-- A chain relates address and value lists of equal length. -/
theorem isChainB_length (h : Heap) :
    ∀ (ns : List Nat) (vs : List Int) (p q : Nat),
      isChainB h p ns vs q = true → ns.length = vs.length := by
  intro ns
  induction ns with
  | nil => intro vs p q hc; cases vs with
    | nil => rfl
    | cons v vs => simp [isChainB_nil_cons] at hc
  | cons n ns ih =>
    intro vs p q hc
    cases vs with
    | nil => simp [isChainB_cons_nil] at hc
    | cons v vs =>
      simp only [isChainB_cons, Bool.and_eq_true] at hc
      simp [ih vs n q hc.2]

/-- A chain only looks at the cells of its own addresses. -/
theorem isChainB_congr (h h' : Heap) :
    ∀ (ns : List Nat) (vs : List Int) (p q : Nat),
      (∀ n ∈ ns, h'.get n = h.get n) →
      isChainB h' p ns vs q = isChainB h p ns vs q := by
  intro ns
  induction ns with
  | nil => intro vs p q _; cases vs <;> rfl
  | cons n ns ih =>
    intro vs p q hsame
    cases vs with
    | nil => rfl
    | cons v vs =>
      simp only [isChainB_cons, hsame n (List.mem_cons_self n ns),
        ih vs n q (fun m hm => hsame m (List.mem_cons_of_mem n hm))]

/-- Two chains concatenate when the first ends where the second starts. -/
theorem isChainB_append (h : Heap) :
    ∀ (ns : List Nat) (vs : List Int) (ms : List Nat) (ws : List Int) (p q : Nat),
      isChainB h p ns vs (ms.headD q) = true →
      isChainB h (ns.getLastD p) ms ws q = true →
      isChainB h p (ns ++ ms) (vs ++ ws) q = true := by
  intro ns
  induction ns with
  | nil =>
    intro vs ms ws p q h1 h2
    cases vs with
    | nil => simpa using h2
    | cons v vs => simp [isChainB_nil_cons] at h1
  | cons n ns ih =>
    intro vs ms ws p q h1 h2
    cases vs with
    | nil => simp [isChainB_cons_nil] at h1
    | cons v vs =>
      simp only [isChainB_cons, Bool.and_eq_true, decide_eq_true_eq] at h1
      rw [List.getLastD_cons] at h2
      have hhead : (ns ++ ms).headD q = ns.headD (ms.headD q) := by
        cases ns <;> simp
      simp only [List.cons_append, isChainB_cons, Bool.and_eq_true,
        decide_eq_true_eq, hhead]
      exact ⟨h1.1, ih vs ms ws n q h1.2 h2⟩

/-- The `getLastD` of a non-empty list is one of its elements. -/
theorem getLastD_mem_self (l : List Nat) (b a : Nat) :
    (b :: l).getLastD a ∈ b :: l := by
  rw [List.getLastD_cons]
  exact List.getLastD_mem_cons l b

/-- Rewriting the `next` link of the last cell of a chain retargets the
chain's endpoint; every other cell is untouched by the write. -/
theorem isChainB_setNext_last (h : Heap) (a : Nat) :
    ∀ (ns : List Nat) (vs : List Int) (p q : Nat), ns.Nodup →
      isChainB h p ns vs q = true →
      isChainB (h.setNext (ns.getLastD p) a) p ns vs a = true := by
  intro ns
  induction ns with
  | nil =>
    intro vs p q _ hc
    cases vs with
    | nil => rfl
    | cons v vs => simp [isChainB_nil_cons] at hc
  | cons n ns ih =>
    intro vs p q hnd hc
    cases vs with
    | nil => simp [isChainB_cons_nil] at hc
    | cons v vs =>
      simp only [isChainB_cons, Bool.and_eq_true, decide_eq_true_eq] at hc
      rw [List.getLastD_cons]
      have hnd' : ns.Nodup := (List.nodup_cons.mp hnd).2
      have hnmem : n ∉ ns := (List.nodup_cons.mp hnd).1
      cases ns with
      | nil =>
        cases vs with
        | cons v' vs' => simp [isChainB_nil_cons] at hc
        | nil =>
          simp only [List.getLastD_nil, isChainB_cons, Bool.and_eq_true,
            decide_eq_true_eq]
          refine ⟨?_, rfl⟩
          rw [Heap.get_setNext_self h n a _ hc.1]
          simp
      | cons m ms =>
        have hne : n ≠ (m :: ms).getLastD n := by
          intro hEq
          exact hnmem (hEq ▸ getLastD_mem_self ms m n)
        simp only [isChainB_cons, Bool.and_eq_true, decide_eq_true_eq]
        constructor
        · rw [Heap.get_setNext_ne h _ a n hne, hc.1]
          simp
        · exact ih vs n q hnd' hc.2

/-- Rewriting the `prev` link of the first cell of a chain re-points the
chain's starting predecessor; every other cell is untouched. -/
theorem isChainB_setPrev_head (h : Heap) (r : Nat) (n : Nat) (ns : List Nat)
    (v : Int) (vs : List Int) (p q : Nat) (hn : n ∉ ns)
    (hc : isChainB h p (n :: ns) (v :: vs) q = true) :
    isChainB (h.setPrev n r) r (n :: ns) (v :: vs) q = true := by
  simp only [isChainB_cons, Bool.and_eq_true, decide_eq_true_eq] at hc
  simp only [isChainB_cons, Bool.and_eq_true, decide_eq_true_eq]
  constructor
  · rw [Heap.get_setPrev_self h n r _ hc.1]
  · rw [isChainB_congr h (h.setPrev n r) ns vs n q
      (fun m hm => Heap.get_setPrev_ne h n r m (fun hEq => hn (hEq ▸ hm)))]
    exact hc.2

/-- Ring well-formedness of a deque: `size_` equals the number of data
nodes, the sentinel and all nodes are live distinct non-null addresses
below the allocation watermark, the sentinel cell is a bare `node_base_`
pointing at the last and first node (itself when empty), and the nodes
form a doubly-consistent chain from the sentinel back to the sentinel
holding the values `vs`. -/
def wfB (d : Deque) (h : Heap) (ns : List Nat) (vs : List Int) : Bool :=
  decide (d.size_ = ns.length) &&
  decide (0 < d.sentinel_ ∧ d.sentinel_ < h.fresh) &&
  decide (∀ a ∈ ns, 0 < a ∧ a < h.fresh) &&
  decide ((d.sentinel_ :: ns).Nodup) &&
  decide (h.get d.sentinel_ =
    some ⟨ns.getLastD d.sentinel_, ns.headD d.sentinel_, none⟩) &&
  isChainB h d.sentinel_ ns vs d.sentinel_

theorem wfB_iff (d : Deque) (h : Heap) (ns : List Nat) (vs : List Int) :
    wfB d h ns vs = true ↔
      (d.size_ = ns.length ∧
       (0 < d.sentinel_ ∧ d.sentinel_ < h.fresh) ∧
       (∀ a ∈ ns, 0 < a ∧ a < h.fresh) ∧
       (d.sentinel_ :: ns).Nodup ∧
       h.get d.sentinel_ =
         some ⟨ns.getLastD d.sentinel_, ns.headD d.sentinel_, none⟩ ∧
       isChainB h d.sentinel_ ns vs d.sentinel_ = true) := by
  simp [wfB, and_assoc]

/-- The `getLastD` of a non-empty list ignores its default argument. -/
theorem getLastD_irrel (l : List Nat) (hl : l ≠ []) (x y : Nat) :
    l.getLastD x = l.getLastD y := by
  cases l with
  | nil => exact absurd rfl hl
  | cons b l => rw [List.getLastD_cons, List.getLastD_cons]

/-- Traversing a chain that ends at `sen` visits exactly its values, in
`length` steps, provided `sen` is not an interior address. -/
theorem traverse_of_chain (h : Heap) (sen : Nat) :
    ∀ (ns : List Nat) (vs : List Int) (p : Nat), sen ∉ ns →
      isChainB h p ns vs sen = true →
      traverseFrom h sen (ns.headD sen) ns.length = some vs := by
  intro ns
  induction ns with
  | nil =>
    intro vs p _ hc
    cases vs with
    | nil => simp [traverseFrom]
    | cons v vs => simp [isChainB_nil_cons] at hc
  | cons n ns ih =>
    intro vs p hmem hc
    cases vs with
    | nil => simp [isChainB_cons_nil] at hc
    | cons v vs =>
      simp only [isChainB_cons, Bool.and_eq_true, decide_eq_true_eq] at hc
      have hnsen : n ≠ sen := fun hEq => hmem (hEq ▸ List.mem_cons_self n ns)
      have hrest := ih vs n (fun hm => hmem (List.mem_cons_of_mem n hm)) hc.2
      simp only [List.headD_cons, List.length_cons, traverseFrom, hnsen,
        if_false, hc.1, hrest, Option.map_some]
      rfl

/-- A well-formed deque's full forward traversal yields exactly its
value list. -/
theorem contents_of_wf (d : Deque) (h : Heap) (ns : List Nat) (vs : List Int)
    (hwf : wfB d h ns vs = true) : d.contents h = some vs := by
  obtain ⟨hsz, _, _, hnd, hcell, hch⟩ := (wfB_iff d h ns vs).mp hwf
  have hsnotin : d.sentinel_ ∉ ns := (List.nodup_cons.mp hnd).1
  have hnext : h.nextOf d.sentinel_ = ns.headD d.sentinel_ := by
    simp [Heap.nextOf, hcell]
  rw [Deque.contents, hnext, hsz]
  exact traverse_of_chain h d.sentinel_ ns vs d.sentinel_ hsnotin hch

/-- `front()` of a well-formed non-empty deque is the first value. -/
theorem front_of_wf (d : Deque) (h : Heap) (n : Nat) (ns : List Nat) (v : Int)
    (vs : List Int) (hwf : wfB d h (n :: ns) (v :: vs) = true) :
    d.front h = some v := by
  obtain ⟨_, _, _, _, hcell, hch⟩ := (wfB_iff d h _ _).mp hwf
  simp only [isChainB_cons, Bool.and_eq_true, decide_eq_true_eq] at hch
  simp [Deque.front, Deque.head_, Heap.nextOf, Heap.dataOf, hcell, hch.1]

/-- Symbolic execution of `push_back_` on a freshly allocated node
attached to a live sentinel. -/
theorem push_back_eq (d : Deque) (h : Heap) (nn last first : Nat)
    (w : Option Int)
    (hnn : h.get nn = some ⟨0, 0, w⟩)
    (hsen : h.get d.sentinel_ = some ⟨last, first, none⟩)
    (hne : nn ≠ d.sentinel_) :
    d.push_back_ h nn =
      (⟨d.sentinel_, d.size_ + 1⟩,
        (((h.setPrev nn last).setNext nn d.sentinel_).setPrev d.sentinel_
          nn).setNext last nn) := by
  simp only [Deque.push_back_]
  have e1 : h.prevOf d.sentinel_ = last := by simp [Heap.prevOf, hsen]
  rw [e1]
  have g1 : (h.setPrev nn last).get nn = some ⟨last, 0, w⟩ :=
    Heap.get_setPrev_self h nn last _ hnn
  have g2 : ((h.setPrev nn last).setNext nn d.sentinel_).get nn =
      some ⟨last, d.sentinel_, w⟩ :=
    Heap.get_setNext_self _ nn d.sentinel_ _ g1
  have e2 : ((h.setPrev nn last).setNext nn d.sentinel_).nextOf nn =
      d.sentinel_ := by simp [Heap.nextOf, g2]
  rw [e2]
  have g3 : ((((h.setPrev nn last).setNext nn d.sentinel_)).setPrev
      d.sentinel_ nn).get nn = some ⟨last, d.sentinel_, w⟩ := by
    rw [Heap.get_setPrev_ne _ _ _ _ hne]; exact g2
  have e3 : ((((h.setPrev nn last).setNext nn d.sentinel_)).setPrev
      d.sentinel_ nn).prevOf nn = last := by simp [Heap.prevOf, g3]
  rw [e3]

/-- Symbolic execution of `push_front_` on a freshly allocated node. -/
theorem push_front_eq (d : Deque) (h : Heap) (nn last first : Nat)
    (w : Option Int)
    (hnn : h.get nn = some ⟨0, 0, w⟩)
    (hsen : h.get d.sentinel_ = some ⟨last, first, none⟩)
    (hne : nn ≠ d.sentinel_) (hnf : nn ≠ first) :
    d.push_front_ h nn =
      (⟨d.sentinel_, d.size_ + 1⟩,
        (((h.setNext nn first).setPrev nn d.sentinel_).setPrev first
          nn).setNext d.sentinel_ nn) := by
  simp only [Deque.push_front_]
  have e1 : h.nextOf d.sentinel_ = first := by simp [Heap.nextOf, hsen]
  rw [e1]
  have g1 : (h.setNext nn first).get nn = some ⟨0, first, w⟩ :=
    Heap.get_setNext_self h nn first _ hnn
  have g2 : ((h.setNext nn first).setPrev nn d.sentinel_).get nn =
      some ⟨d.sentinel_, first, w⟩ :=
    Heap.get_setPrev_self _ nn d.sentinel_ _ g1
  have e2 : ((h.setNext nn first).setPrev nn d.sentinel_).nextOf nn =
      first := by simp [Heap.nextOf, g2]
  rw [e2]
  have g3 : (((h.setNext nn first).setPrev nn d.sentinel_).setPrev first
      nn).get nn = some ⟨d.sentinel_, first, w⟩ := by
    rw [Heap.get_setPrev_ne _ _ _ _ hnf]; exact g2
  have e3 : (((h.setNext nn first).setPrev nn d.sentinel_).setPrev first
      nn).prevOf nn = d.sentinel_ := by simp [Heap.prevOf, g3]
  rw [e3]

/-- `push_back` preserves the ring invariant, appending the new node (at
the allocation watermark) and its value at the back. -/
theorem wf_push_back (d : Deque) (h : Heap) (ns : List Nat) (vs : List Int)
    (v : Int) (hwf : wfB d h ns vs = true) :
    wfB (d.push_back h v).1 (d.push_back h v).2 (ns ++ [h.fresh])
      (vs ++ [v]) = true := by
  obtain ⟨hsz, ⟨hs0, hsf⟩, hbnd, hnd, hcell, hch⟩ := (wfB_iff d h ns vs).mp hwf
  have hnd' : ns.Nodup := (List.nodup_cons.mp hnd).2
  have hsnotin : d.sentinel_ ∉ ns := (List.nodup_cons.mp hnd).1
  have hsa : d.sentinel_ ≠ h.fresh := Nat.ne_of_lt hsf
  have has : h.fresh ≠ d.sentinel_ := Ne.symm hsa
  have hanotin : h.fresh ∉ ns := fun hm => lt_irrefl _ (hbnd _ hm).2
  have hlastmem : ns.getLastD d.sentinel_ ∈ d.sentinel_ :: ns :=
    List.getLastD_mem_cons ns d.sentinel_
  have halast : h.fresh ≠ ns.getLastD d.sentinel_ := by
    intro hEq
    rcases List.mem_cons.mp hlastmem with h1 | h1
    · exact hsa (hEq ▸ h1).symm
    · exact hanotin (hEq ▸ h1)
  -- the allocation step
  have hA_a : (h.alloc (some v)).2.get h.fresh = some ⟨0, 0, some v⟩ :=
    Heap.get_alloc_self h (some v)
  have hA_sen : (h.alloc (some v)).2.get d.sentinel_ =
      some ⟨ns.getLastD d.sentinel_, ns.headD d.sentinel_, none⟩ := by
    rw [Heap.get_alloc_ne h (some v) _ hsa]; exact hcell
  have hA_mem : ∀ m ∈ ns, (h.alloc (some v)).2.get m = h.get m := fun m hm =>
    Heap.get_alloc_ne h (some v) m (fun hEq => hanotin (hEq ▸ hm))
  -- symbolic execution of the whole call
  have hstep0 : d.push_back h v =
      d.push_back_ (h.alloc (some v)).2 (h.alloc (some v)).1 := rfl
  have hstep : d.push_back h v =
      (⟨d.sentinel_, d.size_ + 1⟩,
        ((((h.alloc (some v)).2.setPrev h.fresh
            (ns.getLastD d.sentinel_)).setNext h.fresh d.sentinel_).setPrev
          d.sentinel_ h.fresh).setNext (ns.getLastD d.sentinel_) h.fresh) := by
    rw [hstep0, Heap.alloc_fst]
    exact push_back_eq d (h.alloc (some v)).2 h.fresh _ _ (some v) hA_a
      hA_sen has
  rw [hstep, wfB_iff]
  dsimp only
  -- the three heap layers before the final `setNext`
  have hE3_mem : ∀ m ∈ ns,
      ((((h.alloc (some v)).2.setPrev h.fresh
          (ns.getLastD d.sentinel_)).setNext h.fresh d.sentinel_).setPrev
        d.sentinel_ h.fresh).get m = h.get m := by
    intro m hm
    have hm1 : m ≠ d.sentinel_ := fun hEq => hsnotin (hEq ▸ hm)
    have hm2 : m ≠ h.fresh := fun hEq => hanotin (hEq ▸ hm)
    rw [Heap.get_setPrev_ne _ _ _ _ hm1, Heap.get_setNext_ne _ _ _ _ hm2,
      Heap.get_setPrev_ne _ _ _ _ hm2]
    exact hA_mem m hm
  have hE3_a : ((((h.alloc (some v)).2.setPrev h.fresh
      (ns.getLastD d.sentinel_)).setNext h.fresh d.sentinel_).setPrev
        d.sentinel_ h.fresh).get h.fresh =
      some ⟨ns.getLastD d.sentinel_, d.sentinel_, some v⟩ := by
    rw [Heap.get_setPrev_ne _ _ _ _ has]
    rw [Heap.get_setNext_self _ h.fresh d.sentinel_ _
      (Heap.get_setPrev_self _ h.fresh (ns.getLastD d.sentinel_) _ hA_a)]
  have hE3_sen : ((((h.alloc (some v)).2.setPrev h.fresh
      (ns.getLastD d.sentinel_)).setNext h.fresh d.sentinel_).setPrev
        d.sentinel_ h.fresh).get d.sentinel_ =
      some ⟨h.fresh, ns.headD d.sentinel_, none⟩ := by
    have g1 : (((h.alloc (some v)).2.setPrev h.fresh
        (ns.getLastD d.sentinel_)).setNext h.fresh d.sentinel_).get
          d.sentinel_ =
        some ⟨ns.getLastD d.sentinel_, ns.headD d.sentinel_, none⟩ := by
      rw [Heap.get_setNext_ne _ _ _ _ hsa, Heap.get_setPrev_ne _ _ _ _ hsa]
      exact hA_sen
    rw [Heap.get_setPrev_self _ d.sentinel_ h.fresh _ g1]
  have hE4_a : (((((h.alloc (some v)).2.setPrev h.fresh
      (ns.getLastD d.sentinel_)).setNext h.fresh d.sentinel_).setPrev
        d.sentinel_ h.fresh).setNext (ns.getLastD d.sentinel_) h.fresh).get
          h.fresh =
      some ⟨ns.getLastD d.sentinel_, d.sentinel_, some v⟩ := by
    rw [Heap.get_setNext_ne _ _ _ _ halast]; exact hE3_a
  have hfreshE4 : (((((h.alloc (some v)).2.setPrev h.fresh
      (ns.getLastD d.sentinel_)).setNext h.fresh d.sentinel_).setPrev
        d.sentinel_ h.fresh).setNext (ns.getLastD d.sentinel_) h.fresh).fresh =
      h.fresh + 1 := by
    rw [Heap.fresh_setNext, Heap.fresh_setPrev, Heap.fresh_setNext,
      Heap.fresh_setPrev, Heap.fresh_alloc]
  refine ⟨?_, ?_, ?_, ?_, ?_, ?_⟩
  · simp [hsz]
  · exact ⟨hs0, by rw [hfreshE4]; omega⟩
  · intro x hx
    rw [hfreshE4]
    rcases List.mem_append.mp hx with hx | hx
    · exact ⟨(hbnd x hx).1, Nat.lt_succ_of_lt (hbnd x hx).2⟩
    · rw [List.mem_singleton.mp hx]
      exact ⟨Nat.lt_of_lt_of_le hs0 (Nat.le_of_lt hsf), Nat.lt_succ_self _⟩
  · rw [show d.sentinel_ :: (ns ++ [h.fresh]) =
        (d.sentinel_ :: ns) ++ [h.fresh] from rfl]
    rw [List.nodup_append]
    refine ⟨hnd, List.nodup_singleton _, ?_⟩
    intro x hx hx1
    rw [List.mem_singleton.mp hx1] at hx
    rcases List.mem_cons.mp hx with h1 | h1
    · exact hsa h1.symm
    · exact hanotin h1
  · -- the sentinel cell now points back at the new node
    rw [List.getLastD_concat]
    cases ns with
    | nil =>
      have g1 : ((((h.alloc (some v)).2.setPrev h.fresh
          (List.getLastD [] d.sentinel_)).setNext h.fresh
            d.sentinel_).setPrev d.sentinel_ h.fresh).get d.sentinel_ =
          some ⟨h.fresh, d.sentinel_, none⟩ := by
        simpa using hE3_sen
      have := Heap.get_setNext_self _ d.sentinel_ h.fresh _ g1
      simpa using this
    | cons n0 ns' =>
      have hlast' : (n0 :: ns').getLastD d.sentinel_ ≠ d.sentinel_ := by
        intro hEq
        exact hsnotin (hEq ▸ getLastD_mem_self ns' n0 d.sentinel_)
      rw [Heap.get_setNext_ne _ _ _ _ (Ne.symm hlast')]
      simpa using hE3_sen
  · -- the ring chain gains the new node at its back
    have hpart1 : isChainB (((((h.alloc (some v)).2.setPrev h.fresh
        (ns.getLastD d.sentinel_)).setNext h.fresh d.sentinel_).setPrev
          d.sentinel_ h.fresh).setNext (ns.getLastD d.sentinel_) h.fresh)
        d.sentinel_ ns vs h.fresh = true := by
      have c1 : isChainB ((((h.alloc (some v)).2.setPrev h.fresh
          (ns.getLastD d.sentinel_)).setNext h.fresh d.sentinel_).setPrev
            d.sentinel_ h.fresh) d.sentinel_ ns vs d.sentinel_ = true := by
        rw [isChainB_congr h _ ns vs d.sentinel_ d.sentinel_ hE3_mem]
        exact hch
      exact isChainB_setNext_last _ h.fresh ns vs d.sentinel_ d.sentinel_
        hnd' c1
    have hpart2 : isChainB (((((h.alloc (some v)).2.setPrev h.fresh
        (ns.getLastD d.sentinel_)).setNext h.fresh d.sentinel_).setPrev
          d.sentinel_ h.fresh).setNext (ns.getLastD d.sentinel_) h.fresh)
        (ns.getLastD d.sentinel_) [h.fresh] [v] d.sentinel_ = true := by
      simp only [isChainB_cons, isChainB_nil, Bool.and_eq_true,
        decide_eq_true_eq, List.headD_nil]
      exact ⟨hE4_a, trivial⟩
    exact isChainB_append _ ns vs [h.fresh] [v] d.sentinel_ d.sentinel_
      (by simpa using hpart1) hpart2

/-- The `headD` of a list is the default or one of its elements. -/
theorem headD_mem_cons (l : List Nat) (a : Nat) : l.headD a ∈ a :: l := by
  cases l with
  | nil => simp
  | cons b l => simp

/-- `push_front` preserves the ring invariant, prepending the new node
(at the allocation watermark) and its value at the front. -/
theorem wf_push_front (d : Deque) (h : Heap) (ns : List Nat) (vs : List Int)
    (v : Int) (hwf : wfB d h ns vs = true) :
    wfB (d.push_front h v).1 (d.push_front h v).2 (h.fresh :: ns)
      (v :: vs) = true := by
  obtain ⟨hsz, ⟨hs0, hsf⟩, hbnd, hnd, hcell, hch⟩ := (wfB_iff d h ns vs).mp hwf
  have hnd' : ns.Nodup := (List.nodup_cons.mp hnd).2
  have hsnotin : d.sentinel_ ∉ ns := (List.nodup_cons.mp hnd).1
  have hsa : d.sentinel_ ≠ h.fresh := Nat.ne_of_lt hsf
  have has : h.fresh ≠ d.sentinel_ := Ne.symm hsa
  have hanotin : h.fresh ∉ ns := fun hm => lt_irrefl _ (hbnd _ hm).2
  have hfirstmem : ns.headD d.sentinel_ ∈ d.sentinel_ :: ns :=
    headD_mem_cons ns d.sentinel_
  have hafirst : h.fresh ≠ ns.headD d.sentinel_ := by
    intro hEq
    rcases List.mem_cons.mp hfirstmem with h1 | h1
    · exact hsa (hEq ▸ h1).symm
    · exact hanotin (hEq ▸ h1)
  have hA_a : (h.alloc (some v)).2.get h.fresh = some ⟨0, 0, some v⟩ :=
    Heap.get_alloc_self h (some v)
  have hA_sen : (h.alloc (some v)).2.get d.sentinel_ =
      some ⟨ns.getLastD d.sentinel_, ns.headD d.sentinel_, none⟩ := by
    rw [Heap.get_alloc_ne h (some v) _ hsa]; exact hcell
  have hA_mem : ∀ m ∈ ns, (h.alloc (some v)).2.get m = h.get m := fun m hm =>
    Heap.get_alloc_ne h (some v) m (fun hEq => hanotin (hEq ▸ hm))
  have hstep0 : d.push_front h v =
      d.push_front_ (h.alloc (some v)).2 (h.alloc (some v)).1 := rfl
  have hstep : d.push_front h v =
      (⟨d.sentinel_, d.size_ + 1⟩,
        ((((h.alloc (some v)).2.setNext h.fresh
            (ns.headD d.sentinel_)).setPrev h.fresh d.sentinel_).setPrev
          (ns.headD d.sentinel_) h.fresh).setNext d.sentinel_ h.fresh) := by
    rw [hstep0, Heap.alloc_fst]
    exact push_front_eq d (h.alloc (some v)).2 h.fresh _ _ (some v) hA_a
      hA_sen has hafirst
  rw [hstep, wfB_iff]
  dsimp only
  -- cells of the intermediate layers
  have hE2_a : (((h.alloc (some v)).2.setNext h.fresh
      (ns.headD d.sentinel_)).setPrev h.fresh d.sentinel_).get h.fresh =
      some ⟨d.sentinel_, ns.headD d.sentinel_, some v⟩ := by
    rw [Heap.get_setPrev_self _ h.fresh d.sentinel_ _
      (Heap.get_setNext_self _ h.fresh (ns.headD d.sentinel_) _ hA_a)]
  have hE3_a : ((((h.alloc (some v)).2.setNext h.fresh
      (ns.headD d.sentinel_)).setPrev h.fresh d.sentinel_).setPrev
        (ns.headD d.sentinel_) h.fresh).get h.fresh =
      some ⟨d.sentinel_, ns.headD d.sentinel_, some v⟩ := by
    rw [Heap.get_setPrev_ne _ _ _ _ hafirst]; exact hE2_a
  have hE4_a : (((((h.alloc (some v)).2.setNext h.fresh
      (ns.headD d.sentinel_)).setPrev h.fresh d.sentinel_).setPrev
        (ns.headD d.sentinel_) h.fresh).setNext d.sentinel_ h.fresh).get
          h.fresh =
      some ⟨d.sentinel_, ns.headD d.sentinel_, some v⟩ := by
    rw [Heap.get_setNext_ne _ _ _ _ has]; exact hE3_a
  have hE2_mem : ∀ m ∈ ns, (((h.alloc (some v)).2.setNext h.fresh
      (ns.headD d.sentinel_)).setPrev h.fresh d.sentinel_).get m =
      h.get m := by
    intro m hm
    have hm2 : m ≠ h.fresh := fun hEq => hanotin (hEq ▸ hm)
    rw [Heap.get_setPrev_ne _ _ _ _ hm2, Heap.get_setNext_ne _ _ _ _ hm2]
    exact hA_mem m hm
  have hE2_sen : (((h.alloc (some v)).2.setNext h.fresh
      (ns.headD d.sentinel_)).setPrev h.fresh d.sentinel_).get d.sentinel_ =
      some ⟨ns.getLastD d.sentinel_, ns.headD d.sentinel_, none⟩ := by
    rw [Heap.get_setPrev_ne _ _ _ _ hsa, Heap.get_setNext_ne _ _ _ _ hsa]
    exact hA_sen
  have hfreshE4 : (((((h.alloc (some v)).2.setNext h.fresh
      (ns.headD d.sentinel_)).setPrev h.fresh d.sentinel_).setPrev
        (ns.headD d.sentinel_) h.fresh).setNext d.sentinel_ h.fresh).fresh =
      h.fresh + 1 := by
    rw [Heap.fresh_setNext, Heap.fresh_setPrev, Heap.fresh_setPrev,
      Heap.fresh_setNext, Heap.fresh_alloc]
  refine ⟨?_, ?_, ?_, ?_, ?_, ?_⟩
  · simp [hsz]
  · exact ⟨hs0, by rw [hfreshE4]; omega⟩
  · intro x hx
    rw [hfreshE4]
    rcases List.mem_cons.mp hx with hx | hx
    · subst hx
      exact ⟨Nat.lt_of_lt_of_le hs0 (Nat.le_of_lt hsf), Nat.lt_succ_self _⟩
    · exact ⟨(hbnd x hx).1, Nat.lt_succ_of_lt (hbnd x hx).2⟩
  · rw [List.nodup_cons, List.nodup_cons]
    refine ⟨?_, hanotin, hnd'⟩
    intro hmem
    rcases List.mem_cons.mp hmem with h1 | h1
    · exact hsa h1
    · exact hsnotin h1
  · -- the sentinel cell now points at the new node as first
    cases ns with
    | nil =>
      have g1 : ((((h.alloc (some v)).2.setNext h.fresh
          (List.headD [] d.sentinel_)).setPrev h.fresh
            d.sentinel_).setPrev (List.headD [] d.sentinel_) h.fresh).get
              d.sentinel_ =
          some ⟨h.fresh, List.getLastD [] d.sentinel_, none⟩ := by
        have g0 : (((h.alloc (some v)).2.setNext h.fresh
            (List.headD [] d.sentinel_)).setPrev h.fresh d.sentinel_).get
              d.sentinel_ =
            some ⟨List.getLastD [] d.sentinel_, List.headD [] d.sentinel_,
              none⟩ := hE2_sen
        simp only [List.headD_nil, List.getLastD_nil] at g0 ⊢
        rw [Heap.get_setPrev_self _ d.sentinel_ h.fresh _ g0]
      have := Heap.get_setNext_self _ d.sentinel_ h.fresh _ g1
      simpa using this
    | cons n0 ns' =>
      have hfirst' : n0 ≠ d.sentinel_ := by
        intro hEq
        exact hsnotin (hEq ▸ List.mem_cons_self n0 ns')
      have g1 : ((((h.alloc (some v)).2.setNext h.fresh
          ((n0 :: ns').headD d.sentinel_)).setPrev h.fresh
            d.sentinel_).setPrev ((n0 :: ns').headD d.sentinel_)
              h.fresh).get d.sentinel_ =
          some ⟨(n0 :: ns').getLastD d.sentinel_,
            (n0 :: ns').headD d.sentinel_, none⟩ := by
        rw [Heap.get_setPrev_ne _ _ _ _ (by simpa using Ne.symm hfirst')]
        exact hE2_sen
      have g2 := Heap.get_setNext_self _ d.sentinel_ h.fresh _ g1
      rw [g2]
      simp [List.getLastD_cons]
  · -- the ring chain gains the new node at its front
    simp only [isChainB_cons, Bool.and_eq_true, decide_eq_true_eq]
    constructor
    · exact hE4_a
    · cases ns with
      | nil =>
        cases vs with
        | nil => rfl
        | cons w ws => simp [isChainB_nil_cons] at hch
      | cons n0 ns' =>
        cases vs with
        | nil => simp [isChainB_cons_nil] at hch
        | cons w ws =>
          have hn0 : n0 ∉ ns' := (List.nodup_cons.mp hnd').1
          have c1 : isChainB (((h.alloc (some v)).2.setNext h.fresh
              ((n0 :: ns').headD d.sentinel_)).setPrev h.fresh d.sentinel_)
              d.sentinel_ (n0 :: ns') (w :: ws) d.sentinel_ = true := by
            rw [isChainB_congr h _ (n0 :: ns') (w :: ws) d.sentinel_
              d.sentinel_ hE2_mem]
            exact hch
          have c2 := isChainB_setPrev_head _ h.fresh n0 ns' w ws d.sentinel_
            d.sentinel_ hn0 (by simpa using c1)
          have hsen_notin : ∀ m ∈ n0 :: ns',
              ((((((h.alloc (some v)).2.setNext h.fresh
                ((n0 :: ns').headD d.sentinel_)).setPrev h.fresh
                  d.sentinel_).setPrev n0 h.fresh)).setNext d.sentinel_
                    h.fresh).get m =
              (((((h.alloc (some v)).2.setNext h.fresh
                ((n0 :: ns').headD d.sentinel_)).setPrev h.fresh
                  d.sentinel_).setPrev n0 h.fresh)).get m := by
            intro m hm
            have hmsen : m ≠ d.sentinel_ := fun hEq => hsnotin (hEq ▸ hm)
            exact Heap.get_setNext_ne _ _ _ _ hmsen
          have c3 : isChainB ((((((h.alloc (some v)).2.setNext h.fresh
              ((n0 :: ns').headD d.sentinel_)).setPrev h.fresh
                d.sentinel_).setPrev n0 h.fresh)).setNext d.sentinel_
                  h.fresh) h.fresh (n0 :: ns') (w :: ws) d.sentinel_ =
              true := by
            rw [isChainB_congr _ _ (n0 :: ns') (w :: ws) h.fresh d.sentinel_
              hsen_notin]
            exact c2
          simpa using c3

/-- `pop_front` on a well-formed non-empty deque removes exactly the first
node and value and preserves the ring invariant. -/
theorem wf_pop_front (d : Deque) (h : Heap) (n : Nat) (ns : List Nat)
    (v : Int) (vs : List Int) (hwf : wfB d h (n :: ns) (v :: vs) = true) :
    wfB (d.pop_front h).1 (d.pop_front h).2 ns vs = true := by
  obtain ⟨hsz, ⟨hs0, hsf⟩, hbnd, hnd, hcell, hch⟩ := (wfB_iff d h _ _).mp hwf
  simp only [isChainB_cons, Bool.and_eq_true, decide_eq_true_eq] at hch
  have hsn : d.sentinel_ ≠ n := by
    intro hEq
    exact (List.nodup_cons.mp hnd).1 (hEq ▸ List.mem_cons_self n ns)
  have hnotn : n ∉ ns := (List.nodup_cons.mp (List.nodup_cons.mp hnd).2).1
  have hsnotin : d.sentinel_ ∉ ns := fun hm =>
    (List.nodup_cons.mp hnd).1 (List.mem_cons_of_mem n hm)
  have hhd : h.nextOf d.sentinel_ = n := by
    simp [Heap.nextOf, hcell]
  have hnh : h.nextOf n = ns.headD d.sentinel_ := by
    simp [Heap.nextOf, hch.1]
  have hstep : d.pop_front h =
      (⟨d.sentinel_, d.size_ - 1⟩,
        ((h.free n).setNext d.sentinel_ (ns.headD d.sentinel_)).setPrev
          (ns.headD d.sentinel_) d.sentinel_) := by
    simp only [Deque.pop_front, Deque.head_]
    rw [hhd, hnh]
  rw [hstep, wfB_iff]
  dsimp only
  have h1_sen : (h.free n).get d.sentinel_ =
      some ⟨(n :: ns).getLastD d.sentinel_, n, none⟩ := by
    rw [Heap.get_free_ne _ _ _ hsn]
    simpa using hcell
  have h2_sen : ((h.free n).setNext d.sentinel_
      (ns.headD d.sentinel_)).get d.sentinel_ =
      some ⟨(n :: ns).getLastD d.sentinel_, ns.headD d.sentinel_, none⟩ :=
    Heap.get_setNext_self _ _ _ _ h1_sen
  have hfresh3 : (((h.free n).setNext d.sentinel_
      (ns.headD d.sentinel_)).setPrev (ns.headD d.sentinel_)
        d.sentinel_).fresh = h.fresh := by
    rw [Heap.fresh_setPrev, Heap.fresh_setNext, Heap.fresh_free]
  have hmem2 : ∀ m ∈ ns, ((h.free n).setNext d.sentinel_
      (ns.headD d.sentinel_)).get m = h.get m := by
    intro m hm
    have hm1 : m ≠ d.sentinel_ := fun hEq => hsnotin (hEq ▸ hm)
    have hm2 : m ≠ n := fun hEq => hnotn (hEq ▸ hm)
    rw [Heap.get_setNext_ne _ _ _ _ hm1, Heap.get_free_ne _ _ _ hm2]
  refine ⟨?_, ?_, ?_, ?_, ?_, ?_⟩
  · simp only [List.length_cons] at hsz
    omega
  · exact ⟨hs0, by rw [hfresh3]; exact hsf⟩
  · intro x hx
    rw [hfresh3]
    exact hbnd x (List.mem_cons_of_mem n hx)
  · exact List.nodup_cons.mpr
      ⟨hsnotin, (List.nodup_cons.mp (List.nodup_cons.mp hnd).2).2⟩
  · cases ns with
    | nil =>
      have g := Heap.get_setPrev_self _ d.sentinel_ d.sentinel_ _
        (by simpa using h2_sen)
      simpa using g
    | cons n0 ns' =>
      have hn0 : n0 ≠ d.sentinel_ := by
        intro hEq
        exact hsnotin (hEq ▸ List.mem_cons_self n0 ns')
      simp only [List.headD_cons] at h2_sen ⊢
      rw [Heap.get_setPrev_ne _ _ _ _ (Ne.symm hn0), h2_sen]
      have : (n :: n0 :: ns').getLastD d.sentinel_ =
          (n0 :: ns').getLastD d.sentinel_ := by
        rw [List.getLastD_cons, getLastD_irrel (n0 :: ns') (by simp) n
          d.sentinel_]
      rw [this]
  · cases ns with
    | nil =>
      cases vs with
      | nil => rfl
      | cons w ws => simp [isChainB_nil_cons] at hch
    | cons n0 ns' =>
      cases vs with
      | nil => simp [isChainB_cons_nil] at hch
      | cons w ws =>
        have hn0notin : n0 ∉ ns' :=
          (List.nodup_cons.mp
            (List.nodup_cons.mp (List.nodup_cons.mp hnd).2).2).1
        have c2 : isChainB ((h.free n).setNext d.sentinel_
            ((n0 :: ns').headD d.sentinel_)) n (n0 :: ns') (w :: ws)
            d.sentinel_ = true := by
          rw [isChainB_congr h _ (n0 :: ns') (w :: ws) n d.sentinel_ hmem2]
          exact hch.2
        have c3 := isChainB_setPrev_head _ d.sentinel_ n0 ns' w ws n
          d.sentinel_ hn0notin c2
        simpa using c3

/-- Splitting a chain at its last cell. -/
theorem headD_append_singleton (l : List Nat) (n q : Nat) :
    (l ++ [n]).headD q = l.headD n := by
  cases l <;> simp

theorem isChainB_snoc_split (h : Heap) :
    ∀ (ns : List Nat) (vs : List Int) (n p q : Nat) (v : Int),
      ns.length = vs.length →
      isChainB h p (ns ++ [n]) (vs ++ [v]) q = true →
      isChainB h p ns vs n = true ∧
        h.get n = some ⟨ns.getLastD p, q, some v⟩ := by
  intro ns
  induction ns with
  | nil =>
    intro vs n p q v hlen hc
    cases vs with
    | cons w ws => simp at hlen
    | nil =>
      simp only [List.nil_append, isChainB_cons, isChainB_nil,
        Bool.and_eq_true, decide_eq_true_eq, List.headD_nil] at hc
      exact ⟨rfl, by simpa using hc.1⟩
  | cons n1 ns' ih =>
    intro vs n p q v hlen hc
    cases vs with
    | nil => simp at hlen
    | cons w ws =>
      simp only [List.length_cons] at hlen
      simp only [List.cons_append, isChainB_cons, Bool.and_eq_true,
        decide_eq_true_eq] at hc
      have hrec := ih ws n n1 q v (by omega) hc.2
      refine ⟨?_, ?_⟩
      · simp only [isChainB_cons, Bool.and_eq_true, decide_eq_true_eq]
        refine ⟨?_, hrec.1⟩
        rw [hc.1, headD_append_singleton]
      · rw [hrec.2, List.getLastD_cons]

/-- `pop_back` on a well-formed non-empty deque removes exactly the last
node and value and preserves the ring invariant. -/
theorem wf_pop_back (d : Deque) (h : Heap) (ns : List Nat) (n : Nat)
    (vs : List Int) (v : Int)
    (hwf : wfB d h (ns ++ [n]) (vs ++ [v]) = true) :
    wfB (d.pop_back h).1 (d.pop_back h).2 ns vs = true := by
  obtain ⟨hsz, ⟨hs0, hsf⟩, hbnd, hnd, hcell, hch⟩ := (wfB_iff d h _ _).mp hwf
  have hlen : ns.length = vs.length := by
    have := isChainB_length h (ns ++ [n]) (vs ++ [v]) d.sentinel_
      d.sentinel_ hch
    simpa using this
  have hsplit := isChainB_snoc_split h ns vs n d.sentinel_ d.sentinel_ v
    hlen hch
  have hnd2 : ((d.sentinel_ :: ns) ++ [n]).Nodup := by simpa using hnd
  have hndsn : (d.sentinel_ :: ns).Nodup := (List.nodup_append.mp hnd2).1
  have hdisj : ∀ x ∈ d.sentinel_ :: ns, x ∉ [n] :=
    (List.nodup_append.mp hnd2).2.2
  have hsn : d.sentinel_ ≠ n := by
    have := hdisj d.sentinel_ (List.mem_cons_self _ _)
    simpa using this
  have hnotn : n ∉ ns := by
    intro hm
    exact hdisj n (List.mem_cons_of_mem _ hm) (List.mem_singleton.mpr rfl)
  have hsnotin : d.sentinel_ ∉ ns := (List.nodup_cons.mp hndsn).1
  have htl : h.prevOf d.sentinel_ = n := by
    simp [Heap.prevOf, hcell]
  have hpn : h.prevOf n = ns.getLastD d.sentinel_ := by
    simp [Heap.prevOf, hsplit.2]
  have hstep : d.pop_back h =
      (⟨d.sentinel_, d.size_ - 1⟩,
        ((h.free n).setPrev d.sentinel_ (ns.getLastD d.sentinel_)).setNext
          (ns.getLastD d.sentinel_) d.sentinel_) := by
    simp only [Deque.pop_back, Deque.tail_]
    rw [htl, hpn]
  rw [hstep, wfB_iff]
  dsimp only
  have h1_sen : (h.free n).get d.sentinel_ =
      some ⟨n, (ns ++ [n]).headD d.sentinel_, none⟩ := by
    rw [Heap.get_free_ne _ _ _ hsn]
    rw [hcell, List.getLastD_concat]
  have h2_sen : ((h.free n).setPrev d.sentinel_
      (ns.getLastD d.sentinel_)).get d.sentinel_ =
      some ⟨ns.getLastD d.sentinel_, (ns ++ [n]).headD d.sentinel_, none⟩ :=
    Heap.get_setPrev_self _ _ _ _ h1_sen
  have hfresh3 : (((h.free n).setPrev d.sentinel_
      (ns.getLastD d.sentinel_)).setNext (ns.getLastD d.sentinel_)
        d.sentinel_).fresh = h.fresh := by
    rw [Heap.fresh_setNext, Heap.fresh_setPrev, Heap.fresh_free]
  have hmem2 : ∀ m ∈ ns, ((h.free n).setPrev d.sentinel_
      (ns.getLastD d.sentinel_)).get m = h.get m := by
    intro m hm
    have hm1 : m ≠ d.sentinel_ := fun hEq => hsnotin (hEq ▸ hm)
    have hm2 : m ≠ n := fun hEq => hnotn (hEq ▸ hm)
    rw [Heap.get_setPrev_ne _ _ _ _ hm1, Heap.get_free_ne _ _ _ hm2]
  refine ⟨?_, ?_, ?_, ?_, ?_, ?_⟩
  · simp only [List.length_append, List.length_singleton] at hsz
    omega
  · exact ⟨hs0, by rw [hfresh3]; exact hsf⟩
  · intro x hx
    rw [hfresh3]
    exact hbnd x (List.mem_append.mpr (Or.inl hx))
  · exact hndsn
  · cases ns with
    | nil =>
      have g := Heap.get_setNext_self _ d.sentinel_ d.sentinel_ _
        (by simpa using h2_sen)
      simpa using g
    | cons n0 ns' =>
      have hlastne : (n0 :: ns').getLastD d.sentinel_ ≠ d.sentinel_ := by
        intro hEq
        exact hsnotin (hEq ▸ getLastD_mem_self ns' n0 d.sentinel_)
      rw [Heap.get_setNext_ne _ _ _ _ (Ne.symm hlastne)]
      rw [h2_sen]
      rw [headD_append_singleton]
      rfl
  · have c2 : isChainB ((h.free n).setPrev d.sentinel_
        (ns.getLastD d.sentinel_)) d.sentinel_ ns vs n = true := by
      rw [isChainB_congr h _ ns vs d.sentinel_ n hmem2]
      exact hsplit.1
    have hndns : ns.Nodup := (List.nodup_cons.mp hndsn).2
    exact isChainB_setNext_last _ d.sentinel_ ns vs d.sentinel_ n hndns c2

/-- `clear` empties a well-formed deque, leaving a well-formed empty
ring. -/
theorem wf_clear (d : Deque) (h : Heap) (ns : List Nat) (vs : List Int)
    (hwf : wfB d h ns vs = true) :
    wfB (d.clear h).1 (d.clear h).2 [] [] = true := by
  induction ns generalizing d h vs with
  | nil =>
    have hsz : d.size_ = 0 := ((wfB_iff d h [] vs).mp hwf).1
    have hvs : vs = [] := by
      have hch := ((wfB_iff d h [] vs).mp hwf).2.2.2.2.2
      cases vs with
      | nil => rfl
      | cons w ws => simp [isChainB_nil_cons] at hch
    subst hvs
    rw [Deque.clear, hsz]
    exact hwf
  | cons n ns' ih =>
    have hsz : d.size_ = ns'.length + 1 :=
      by simpa using ((wfB_iff d h (n :: ns') vs).mp hwf).1
    have hvs : ∃ w ws, vs = w :: ws := by
      have hch := ((wfB_iff d h (n :: ns') vs).mp hwf).2.2.2.2.2
      cases vs with
      | nil => simp [isChainB_cons_nil] at hch
      | cons w ws => exact ⟨w, ws, rfl⟩
    obtain ⟨w, ws, rfl⟩ := hvs
    have hpf := wf_pop_front d h n ns' w ws hwf
    have hsz' : (d.pop_front h).1.size_ = ns'.length :=
      ((wfB_iff _ _ _ _).mp hpf).1
    rw [Deque.clear, hsz]
    have hstep : Deque.clearGo (ns'.length + 1) d h =
        Deque.clearGo ns'.length (d.pop_front h).1 (d.pop_front h).2 := by
      rw [Deque.clearGo]
      simp [hsz]
    rw [hstep]
    have := ih (d.pop_front h).1 (d.pop_front h).2 ws hpf
    rwa [Deque.clear, hsz'] at this

/-- The default constructor produces a well-formed empty deque on any
heap that has not exhausted the null address. -/
theorem wf_mkNew (h : Heap) (h0 : 0 < h.fresh) :
    wfB (Deque.mkNew h).1 (Deque.mkNew h).2 [] [] = true := by
  have hstep : Deque.mkNew h =
      (⟨h.fresh, 0⟩,
        (h.alloc none).2.write h.fresh ⟨h.fresh, h.fresh, none⟩) := rfl
  rw [hstep, wfB_iff]
  dsimp only
  refine ⟨rfl, ⟨h0, ?_⟩, ?_, ?_, ?_, ?_⟩
  · rw [Heap.fresh_write, Heap.fresh_alloc]
    omega
  · intro x hx
    simp at hx
  · simp
  · rw [Heap.get_write_self]
    simp
  · rfl

/-- Pushing a list of values at the back appends them, in order, to a
well-formed deque's contents. -/
theorem wf_pushBackAll (ws : List Int) :
    ∀ (d : Deque) (h : Heap) (ns : List Nat) (vs : List Int),
      wfB d h ns vs = true →
      ∃ ms, wfB (Deque.pushBackAll d h ws).1 (Deque.pushBackAll d h ws).2
        ms (vs ++ ws) = true := by
  induction ws with
  | nil =>
    intro d h ns vs hwf
    exact ⟨ns, by simpa [Deque.pushBackAll] using hwf⟩
  | cons w ws' ih =>
    intro d h ns vs hwf
    have hstep := wf_push_back d h ns vs w hwf
    obtain ⟨ms, hms⟩ := ih (d.push_back h w).1 (d.push_back h w).2
      (ns ++ [h.fresh]) (vs ++ [w]) hstep
    refine ⟨ms, ?_⟩
    have heq : Deque.pushBackAll d h (w :: ws') =
        Deque.pushBackAll (d.push_back h w).1 (d.push_back h w).2 ws' := rfl
    rw [heq]
    simpa [List.append_assoc] using hms

/-- Pushing a list of values at the front prepends them, in reverse call
order, to a well-formed deque's contents. -/
theorem wf_pushFrontAll (ws : List Int) :
    ∀ (d : Deque) (h : Heap) (ns : List Nat) (vs : List Int),
      wfB d h ns vs = true →
      ∃ ms, wfB (Deque.pushFrontAll d h ws).1 (Deque.pushFrontAll d h ws).2
        ms (ws.reverse ++ vs) = true := by
  induction ws with
  | nil =>
    intro d h ns vs hwf
    exact ⟨ns, by simpa [Deque.pushFrontAll] using hwf⟩
  | cons w ws' ih =>
    intro d h ns vs hwf
    have hstep := wf_push_front d h ns vs w hwf
    obtain ⟨ms, hms⟩ := ih (d.push_front h w).1 (d.push_front h w).2
      (h.fresh :: ns) (w :: vs) hstep
    refine ⟨ms, ?_⟩
    have heq : Deque.pushFrontAll d h (w :: ws') =
        Deque.pushFrontAll (d.push_front h w).1 (d.push_front h w).2
          ws' := rfl
    rw [heq]
    have hl : (w :: ws').reverse ++ vs = ws'.reverse ++ (w :: vs) := by
      simp
    rw [hl]
    exact hms

/-- `back()` of a well-formed singleton deque is its value. -/
theorem back_of_wf_singleton (d : Deque) (h : Heap) (n : Nat) (v : Int)
    (hwf : wfB d h [n] [v] = true) : d.back h = some v := by
  obtain ⟨_, _, _, _, hcell, hch⟩ := (wfB_iff d h _ _).mp hwf
  simp only [isChainB_cons, Bool.and_eq_true, decide_eq_true_eq] at hch
  have : h.prevOf d.sentinel_ = n := by
    simp [Heap.prevOf, hcell]
  simp [Deque.back, Deque.tail_, this, Heap.dataOf, hch.1]

/-- `clearGo` never changes which object's sentinel the deque uses. -/
theorem clearGo_sentinel (fuel : Nat) :
    ∀ (d : Deque) (h : Heap),
      (Deque.clearGo fuel d h).1.sentinel_ = d.sentinel_ := by
  induction fuel with
  | zero => intro d h; rfl
  | succ fuel ih =>
    intro d h
    rw [Deque.clearGo]
    by_cases hz : d.size_ = 0
    · simp [hz]
    · simp only [hz, if_false]
      exact ih (d.pop_front h).1 (d.pop_front h).2

/-- The copy loop does nothing when the cursor already equals `end()`. -/
theorem copyRange_stop (fuel : Nat) (d : Deque) (h : Heap) (s : Nat) :
    Deque.copyRange fuel d h s s = (d, h) := by
  cases fuel with
  | zero => rfl
  | succ fuel => simp [Deque.copyRange]

/-- Model of `push_back` under a fallible `new node_(value)`
(Sentinel.h:414-424): the node is allocated and its element constructed
before `push_back_` mutates any existing link or the size, so when the
allocation oracle `ok` reports failure the exception propagates and the
deque and heap are returned exactly as given. The `Bool` of the result
reports success. -/
def Deque.push_back_checked (d : Deque) (h : Heap) (v : Int) (ok : Bool) :
    Deque × Heap × Bool :=
  if ok then
    let (nn, h1) := h.alloc (some v)
    let (d', h') := d.push_back_ h1 nn
    (d', h', true)
  else (d, h, false)

/-- Model of `push_front` under a fallible `new node_(value)`
(Sentinel.h:385-395); see `push_back_checked`. -/
def Deque.push_front_checked (d : Deque) (h : Heap) (v : Int) (ok : Bool) :
    Deque × Heap × Bool :=
  if ok then
    let (nn, h1) := h.alloc (some v)
    let (d', h') := d.push_front_ h1 nn
    (d', h', true)
  else (d, h, false)

/-- The deque `{10, 20}` built on the empty heap; C1's move source. -/
def c1A : Deque × Heap := Deque.ofList emptyHeap [10, 20]

/-- The state after `Deque b = std::move(a)` for `a = {10, 20}`:
`(b, a, heap)`. -/
def c1Move : Deque × Deque × Heap := Deque.moveConstruct c1A.1 c1A.2

/-- C1: after `Deque b = std::move(a)` with `a = {10, 20}`, `a.empty()`
does hold and `b` reports size 2 with `front() = 10`, but the full forward
traversal of `b` never reaches `b`'s own `end()`: `move_from_`
(Sentinel.h:282-292) copies the sentinel's links without re-pointing the
adopted boundary nodes, so `b`'s last node still points at `a`'s (now
self-linked) sentinel and the traversal returns no element list at any
fuel; the first node's `prev` also fails to point back at `b`'s
sentinel. This refutes the claimed traversal behavior on the code as
written. -/
theorem c1_move_breaks_traversal :
    c1Move.2.1.empty = true ∧
    c1Move.1.size = 2 ∧
    c1Move.1.front c1Move.2.2 = some 10 ∧
    c1Move.1.contents c1Move.2.2 = none ∧
    traverseFrom c1Move.2.2 c1Move.1.sentinel_
      (c1Move.2.2.nextOf c1Move.1.sentinel_) 100 = none ∧
    c1Move.2.2.prevOf (c1Move.2.2.nextOf c1Move.1.sentinel_) ≠
      c1Move.1.sentinel_ := by decide

/-- The deque `{1, 2}` built on the empty heap; C2's first operand. -/
def c2A : Deque × Heap := Deque.ofList emptyHeap [1, 2]

/-- The deque `{9}` built beside `{1, 2}` in the same heap. -/
def c2B : Deque × Heap := Deque.ofList c2A.2 [9]

/-- `a.swap(b)` for `a = {1, 2}`, `b = {9}`: `(a, b, heap)`. -/
def c2Swap : Deque × Deque × Heap := c2A.1.swap c2B.1 c2B.2

/-- An empty deque built on the empty heap; C2's one-empty operand. -/
def c2E : Deque × Heap := Deque.mkNew emptyHeap

/-- The deque `{9}` built beside the empty deque in the same heap. -/
def c2F : Deque × Heap := Deque.ofList c2E.2 [9]

/-- `a.swap(b)` for `a = {}`, `b = {9}`: `(a, b, heap)`. -/
def c2ESwap : Deque × Deque × Heap := c2E.1.swap c2F.1 c2F.2

/-- C2: the concrete both-non-empty scenario holds — after `swap(a, b)`
with `a = {1, 2}`, `b = {9}`, traversal gives `a = {9}` and `b = {1, 2}`
(the non-empty branch of `swap`, Sentinel.h:475-482, re-points both
sentinels' neighbors). But the claim's universal part fails when exactly
one side is empty: for `a = {}`, `b = {9}`, `swap` falls back on the
defective `move_from_` (Sentinel.h:471-474, 282-292), leaving `a` with
size 1 and `front() = 9` while `a`'s forward traversal never reaches
`a.end()` (the adopted node still points at `b`'s reset sentinel), so `a`
does not hold `b`'s prior elements under traversal. -/
theorem c2_swap_eval :
    (c2Swap.1.contents c2Swap.2.2 = some [9] ∧
     c2Swap.2.1.contents c2Swap.2.2 = some [1, 2] ∧
     c2Swap.1.size = 1 ∧ c2Swap.2.1.size = 2) ∧
    (c2ESwap.1.size = 1 ∧
     c2ESwap.1.front c2ESwap.2.2 = some 9 ∧
     c2ESwap.1.contents c2ESwap.2.2 = none ∧
     traverseFrom c2ESwap.2.2 c2ESwap.1.sentinel_
       (c2ESwap.2.2.nextOf c2ESwap.1.sentinel_) 100 = none ∧
     c2ESwap.2.1.empty = true) := by decide

/-- The deque `{1}` built on the empty heap; C3's move source. -/
def c3A : Deque × Heap := Deque.ofList emptyHeap [1]

/-- The state after `Deque b = std::move(a)` for `a = {1}`: `(b, a, heap)`. -/
def c3Move : Deque × Deque × Heap := Deque.moveConstruct c3A.1 c3A.2

/-- C3: the invariant fails on a deque reachable by the public operations.
`b = std::move(Deque{1})` has `size() = 1`, yet the cells reachable by
following `next` from `b`'s sentinel do not form a ring back to `b`'s
sentinel (the traversal yields no list), and `prev`/`next` are not mutual
inverses at `b`'s head: `b.sentinel.next` is the data node (address 2)
whose `prev` does not point back at `b`'s sentinel. The moved-from deque
`a` does satisfy the empty-state clause (`size = 0` and its sentinel
self-linked), which isolates the violation to the moved-to ring. -/
theorem c3_invariant_violated_by_move :
    c3Move.1.size = 1 ∧
    c3Move.1.contents c3Move.2.2 = none ∧
    c3Move.2.2.nextOf c3Move.1.sentinel_ = 2 ∧
    c3Move.2.2.prevOf 2 ≠ c3Move.1.sentinel_ ∧
    c3Move.2.1.size = 0 ∧
    c3Move.2.2.nextOf c3Move.2.1.sentinel_ = c3Move.2.1.sentinel_ ∧
    c3Move.2.2.prevOf c3Move.2.1.sentinel_ = c3Move.2.1.sentinel_ := by
  decide

/-- C4: starting from a freshly constructed deque, pushing a sequence at
the back makes forward traversal visit it in call order; pushing it at
the front makes forward traversal visit it in reverse call order; and the
initializer-list constructor is exactly the default constructor followed
by those `push_back` calls, so `Deque{x1, ..., xn}` traverses as
`x1, ..., xn`. -/
theorem c4_push_order (h : Heap) (ws : List Int) (h0 : 0 < h.fresh) :
    (Deque.pushBackAll (Deque.mkNew h).1 (Deque.mkNew h).2 ws).1.contents
      (Deque.pushBackAll (Deque.mkNew h).1 (Deque.mkNew h).2 ws).2 =
        some ws ∧
    (Deque.pushFrontAll (Deque.mkNew h).1 (Deque.mkNew h).2 ws).1.contents
      (Deque.pushFrontAll (Deque.mkNew h).1 (Deque.mkNew h).2 ws).2 =
        some ws.reverse ∧
    Deque.ofList h ws =
      Deque.pushBackAll (Deque.mkNew h).1 (Deque.mkNew h).2 ws ∧
    (Deque.ofList h ws).1.contents (Deque.ofList h ws).2 = some ws := by
  have hwf0 := wf_mkNew h h0
  obtain ⟨ms, hms⟩ := wf_pushBackAll ws (Deque.mkNew h).1 (Deque.mkNew h).2
    [] [] hwf0
  obtain ⟨ks, hks⟩ := wf_pushFrontAll ws (Deque.mkNew h).1 (Deque.mkNew h).2
    [] [] hwf0
  have hback := contents_of_wf _ _ ms ([] ++ ws) hms
  have hfront := contents_of_wf _ _ ks (ws.reverse ++ []) hks
  refine ⟨by simpa using hback, by simpa using hfront, rfl, ?_⟩
  have : Deque.ofList h ws =
      Deque.pushBackAll (Deque.mkNew h).1 (Deque.mkNew h).2 ws := rfl
  rw [this]
  simpa using hback

/-- C4 witness: the theorem applied to the empty heap and the sequence
`[0, 1, 2]` of the spec's concrete scenario. -/
theorem c4_push_order_witness :
    0 < emptyHeap.fresh ∧
    ((Deque.pushBackAll (Deque.mkNew emptyHeap).1 (Deque.mkNew emptyHeap).2
        [0, 1, 2]).1.contents
      (Deque.pushBackAll (Deque.mkNew emptyHeap).1 (Deque.mkNew emptyHeap).2
        [0, 1, 2]).2 = some [0, 1, 2] ∧
     (Deque.pushFrontAll (Deque.mkNew emptyHeap).1
        (Deque.mkNew emptyHeap).2 [0, 1, 2]).1.contents
      (Deque.pushFrontAll (Deque.mkNew emptyHeap).1
        (Deque.mkNew emptyHeap).2 [0, 1, 2]).2 = some [2, 1, 0] ∧
     Deque.ofList emptyHeap [0, 1, 2] =
       Deque.pushBackAll (Deque.mkNew emptyHeap).1
         (Deque.mkNew emptyHeap).2 [0, 1, 2] ∧
     (Deque.ofList emptyHeap [0, 1, 2]).1.contents
       (Deque.ofList emptyHeap [0, 1, 2]).2 = some [0, 1, 2]) :=
  ⟨by decide, by
    have := c4_push_order emptyHeap [0, 1, 2] (by decide)
    simpa using this⟩

/-- The deque `{5}` built on the empty heap; C5's counterexample input. -/
def c5Input : Deque × Heap := Deque.ofList emptyHeap [5]

/-- `{5}` after `push_back(7)`. -/
def c5Pushed : Deque × Heap := c5Input.1.push_back c5Input.2 7

/-- `{5, 7}` after the subsequent `pop_front()`. -/
def c5Popped : Deque × Heap := c5Pushed.1.pop_front c5Pushed.2

/-- C5 counterexample: on the non-empty deque `d = {5}` with `x = 7`,
`push_back(7); pop_front()` removes and yields the front element 5, not
7, and leaves `{7}`, not the prior `{5}` — so the claimed FIFO round trip
fails for non-empty deques. -/
theorem c5_fifo_counterexample :
    c5Input.1.contents c5Input.2 = some [5] ∧
    c5Pushed.1.front c5Pushed.2 = some 5 ∧
    c5Popped.1.contents c5Popped.2 = some [7] ∧
    ¬ (c5Pushed.1.front c5Pushed.2 = some 7 ∧
       c5Popped.1.contents c5Popped.2 = c5Input.1.contents c5Input.2) := by
  decide

/-- C5 (amended): for every well-formed EMPTY deque `d` and value `x`,
`push_back(x); pop_front()` yields `x` (the element `pop_front` removes,
read as `front()` of the intermediate state) and returns `d` to its prior
empty state; dually `push_front(x); pop_back()` yields `x` (read as
`back()`) and returns to the empty state. -/
theorem c5_roundtrip_empty (d : Deque) (h : Heap) (x : Int)
    (hwf : wfB d h [] [] = true) :
    ((d.push_back h x).1.front (d.push_back h x).2 = some x ∧
     ((d.push_back h x).1.pop_front (d.push_back h x).2).1.size = 0 ∧
     ((d.push_back h x).1.pop_front (d.push_back h x).2).1.contents
       ((d.push_back h x).1.pop_front (d.push_back h x).2).2 = some []) ∧
    ((d.push_front h x).1.back (d.push_front h x).2 = some x ∧
     ((d.push_front h x).1.pop_back (d.push_front h x).2).1.size = 0 ∧
     ((d.push_front h x).1.pop_back (d.push_front h x).2).1.contents
       ((d.push_front h x).1.pop_back (d.push_front h x).2).2 = some []) := by
  have hb := wf_push_back d h [] [] x hwf
  have hf := wf_push_front d h [] [] x hwf
  simp only [List.nil_append] at hb
  have hbpop := wf_pop_front (d.push_back h x).1 (d.push_back h x).2 h.fresh
    [] x [] hb
  have hfpop := wf_pop_back (d.push_front h x).1 (d.push_front h x).2 []
    h.fresh [] x (by simpa using hf)
  refine ⟨⟨?_, ?_, ?_⟩, ⟨?_, ?_, ?_⟩⟩
  · exact front_of_wf _ _ h.fresh [] x [] hb
  · exact ((wfB_iff _ _ _ _).mp hbpop).1
  · exact contents_of_wf _ _ [] [] hbpop
  · exact back_of_wf_singleton _ _ h.fresh x hf
  · exact ((wfB_iff _ _ _ _).mp hfpop).1
  · exact contents_of_wf _ _ [] [] hfpop

/-- C5 witness: the amended round trip at the concrete empty deque built
by the default constructor on the empty heap, with `x = 7`. -/
theorem c5_roundtrip_empty_witness :
    wfB (Deque.mkNew emptyHeap).1 (Deque.mkNew emptyHeap).2 [] [] = true ∧
    (((Deque.mkNew emptyHeap).1.push_back (Deque.mkNew emptyHeap).2 7).1.front
        ((Deque.mkNew emptyHeap).1.push_back (Deque.mkNew emptyHeap).2 7).2 =
      some 7 ∧
     (((Deque.mkNew emptyHeap).1.push_back (Deque.mkNew emptyHeap).2
        7).1.pop_front
       ((Deque.mkNew emptyHeap).1.push_back (Deque.mkNew emptyHeap).2
        7).2).1.size = 0 ∧
     (((Deque.mkNew emptyHeap).1.push_back (Deque.mkNew emptyHeap).2
        7).1.pop_front
       ((Deque.mkNew emptyHeap).1.push_back (Deque.mkNew emptyHeap).2
        7).2).1.contents
       (((Deque.mkNew emptyHeap).1.push_back (Deque.mkNew emptyHeap).2
        7).1.pop_front
        ((Deque.mkNew emptyHeap).1.push_back (Deque.mkNew emptyHeap).2
        7).2).2 = some []) ∧
    (((Deque.mkNew emptyHeap).1.push_front (Deque.mkNew emptyHeap).2
        7).1.back
        ((Deque.mkNew emptyHeap).1.push_front (Deque.mkNew emptyHeap).2
        7).2 = some 7 ∧
     (((Deque.mkNew emptyHeap).1.push_front (Deque.mkNew emptyHeap).2
        7).1.pop_back
       ((Deque.mkNew emptyHeap).1.push_front (Deque.mkNew emptyHeap).2
        7).2).1.size = 0 ∧
     (((Deque.mkNew emptyHeap).1.push_front (Deque.mkNew emptyHeap).2
        7).1.pop_back
       ((Deque.mkNew emptyHeap).1.push_front (Deque.mkNew emptyHeap).2
        7).2).1.contents
       (((Deque.mkNew emptyHeap).1.push_front (Deque.mkNew emptyHeap).2
        7).1.pop_back
        ((Deque.mkNew emptyHeap).1.push_front (Deque.mkNew emptyHeap).2
        7).2).2 = some []) :=
  ⟨by decide, c5_roundtrip_empty (Deque.mkNew emptyHeap).1
    (Deque.mkNew emptyHeap).2 7 (by decide)⟩

/-- C6: when the allocation oracle reports failure, `push_back` and
`push_front` propagate the failure and return the deque and heap exactly
as given — in particular a well-formed deque keeps its contents
unchanged (strong guarantee) — because `new node_(value)` is fully
evaluated before `push_back_`/`push_front_` mutates any existing link or
the size counter; on success they behave exactly as the plain
operations, appending or prepending the value. -/
theorem c6_strong_guarantee (d : Deque) (h : Heap) (ns : List Nat)
    (vs : List Int) (v : Int) (hwf : wfB d h ns vs = true) :
    (d.push_back_checked h v false = (d, h, false) ∧
     d.push_front_checked h v false = (d, h, false) ∧
     (d.push_back_checked h v false).1.contents
       (d.push_back_checked h v false).2.1 = some vs ∧
     (d.push_front_checked h v false).1.contents
       (d.push_front_checked h v false).2.1 = some vs) ∧
    (d.push_back_checked h v true =
       ((d.push_back h v).1, (d.push_back h v).2, true) ∧
     d.push_front_checked h v true =
       ((d.push_front h v).1, (d.push_front h v).2, true) ∧
     (d.push_back_checked h v true).1.contents
       (d.push_back_checked h v true).2.1 = some (vs ++ [v]) ∧
     (d.push_front_checked h v true).1.contents
       (d.push_front_checked h v true).2.1 = some (v :: vs)) := by
  have hcb := contents_of_wf _ _ _ _ (wf_push_back d h ns vs v hwf)
  have hcf := contents_of_wf _ _ _ _ (wf_push_front d h ns vs v hwf)
  exact ⟨⟨rfl, rfl, contents_of_wf d h ns vs hwf,
      contents_of_wf d h ns vs hwf⟩,
    ⟨rfl, rfl, hcb, hcf⟩⟩

/-- C6 witness: the strong guarantee at the concrete deque `{1, 2}`
(sentinel at address 1, nodes at 2 and 3) with `v = 9`. -/
theorem c6_strong_guarantee_witness :
    wfB (Deque.ofList emptyHeap [1, 2]).1 (Deque.ofList emptyHeap [1, 2]).2
      [2, 3] [1, 2] = true ∧
    (((Deque.ofList emptyHeap [1, 2]).1.push_back_checked
        (Deque.ofList emptyHeap [1, 2]).2 9 false =
       ((Deque.ofList emptyHeap [1, 2]).1,
        (Deque.ofList emptyHeap [1, 2]).2, false) ∧
      (Deque.ofList emptyHeap [1, 2]).1.push_front_checked
        (Deque.ofList emptyHeap [1, 2]).2 9 false =
       ((Deque.ofList emptyHeap [1, 2]).1,
        (Deque.ofList emptyHeap [1, 2]).2, false) ∧
      ((Deque.ofList emptyHeap [1, 2]).1.push_back_checked
        (Deque.ofList emptyHeap [1, 2]).2 9 false).1.contents
       ((Deque.ofList emptyHeap [1, 2]).1.push_back_checked
        (Deque.ofList emptyHeap [1, 2]).2 9 false).2.1 = some [1, 2] ∧
      ((Deque.ofList emptyHeap [1, 2]).1.push_front_checked
        (Deque.ofList emptyHeap [1, 2]).2 9 false).1.contents
       ((Deque.ofList emptyHeap [1, 2]).1.push_front_checked
        (Deque.ofList emptyHeap [1, 2]).2 9 false).2.1 = some [1, 2]) ∧
     ((Deque.ofList emptyHeap [1, 2]).1.push_back_checked
        (Deque.ofList emptyHeap [1, 2]).2 9 true =
       (((Deque.ofList emptyHeap [1, 2]).1.push_back
          (Deque.ofList emptyHeap [1, 2]).2 9).1,
        ((Deque.ofList emptyHeap [1, 2]).1.push_back
          (Deque.ofList emptyHeap [1, 2]).2 9).2, true) ∧
      (Deque.ofList emptyHeap [1, 2]).1.push_front_checked
        (Deque.ofList emptyHeap [1, 2]).2 9 true =
       (((Deque.ofList emptyHeap [1, 2]).1.push_front
          (Deque.ofList emptyHeap [1, 2]).2 9).1,
        ((Deque.ofList emptyHeap [1, 2]).1.push_front
          (Deque.ofList emptyHeap [1, 2]).2 9).2, true) ∧
      ((Deque.ofList emptyHeap [1, 2]).1.push_back_checked
        (Deque.ofList emptyHeap [1, 2]).2 9 true).1.contents
       ((Deque.ofList emptyHeap [1, 2]).1.push_back_checked
        (Deque.ofList emptyHeap [1, 2]).2 9 true).2.1 = some [1, 2, 9] ∧
      ((Deque.ofList emptyHeap [1, 2]).1.push_front_checked
        (Deque.ofList emptyHeap [1, 2]).2 9 true).1.contents
       ((Deque.ofList emptyHeap [1, 2]).1.push_front_checked
        (Deque.ofList emptyHeap [1, 2]).2 9 true).2.1 = some [9, 1, 2])) :=
  ⟨by decide, c6_strong_guarantee (Deque.ofList emptyHeap [1, 2]).1
    (Deque.ofList emptyHeap [1, 2]).2 [2, 3] [1, 2] 9 (by decide)⟩

/-- C9: copy-assigning a well-formed deque to itself leaves it empty:
`operator=` clears the destination first (Sentinel.h:314-323), and the
range-for then iterates over the source — the same, already cleared,
object — whose `begin()` now equals its `end()`, so nothing is pushed
back. -/
theorem c9_self_assign_empty (d : Deque) (h : Heap) (ns : List Nat)
    (vs : List Int) (fuel : Nat) (hwf : wfB d h ns vs = true) :
    (d.copy_assign d h fuel).1.empty = true ∧
    (d.copy_assign d h fuel).1.size = 0 ∧
    (d.copy_assign d h fuel).1.contents (d.copy_assign d h fuel).2 =
      some [] := by
  have hcl := wf_clear d h ns vs hwf
  have hsen : (d.clear h).1.sentinel_ = d.sentinel_ := clearGo_sentinel _ d h
  obtain ⟨hsz, _, _, _, hcell, _⟩ := (wfB_iff _ _ [] []).mp hcl
  rw [hsen] at hcell
  have hnext : (d.clear h).2.nextOf d.sentinel_ = d.sentinel_ := by
    simp [Heap.nextOf, hcell]
  have hm : ∀ p : Deque × Heap, d.clear h = p →
      d.copy_assign d h fuel =
        Deque.copyRange fuel p.1 p.2 (p.2.nextOf d.sentinel_)
          d.sentinel_ := by
    rintro ⟨dc, hc⟩ hp
    rw [Deque.copy_assign, hp]
  have hstep : d.copy_assign d h fuel = ((d.clear h).1, (d.clear h).2) := by
    rw [hm ((d.clear h).1, (d.clear h).2) rfl, hnext]
    exact copyRange_stop fuel _ _ _
  rw [hstep]
  refine ⟨?_, ?_, ?_⟩
  · simp [Deque.empty, hsz]
  · simpa [Deque.size] using hsz
  · exact contents_of_wf _ _ [] [] hcl

/-- C9 witness: self-copy-assignment of the concrete deque `{1, 2}`
(sentinel at address 1, nodes at 2 and 3) ends empty. -/
theorem c9_self_assign_empty_witness :
    wfB (Deque.ofList emptyHeap [1, 2]).1 (Deque.ofList emptyHeap [1, 2]).2
      [2, 3] [1, 2] = true ∧
    (((Deque.ofList emptyHeap [1, 2]).1.copy_assign
        (Deque.ofList emptyHeap [1, 2]).1
        (Deque.ofList emptyHeap [1, 2]).2 100).1.empty = true ∧
     ((Deque.ofList emptyHeap [1, 2]).1.copy_assign
        (Deque.ofList emptyHeap [1, 2]).1
        (Deque.ofList emptyHeap [1, 2]).2 100).1.size = 0 ∧
     ((Deque.ofList emptyHeap [1, 2]).1.copy_assign
        (Deque.ofList emptyHeap [1, 2]).1
        (Deque.ofList emptyHeap [1, 2]).2 100).1.contents
       ((Deque.ofList emptyHeap [1, 2]).1.copy_assign
        (Deque.ofList emptyHeap [1, 2]).1
        (Deque.ofList emptyHeap [1, 2]).2 100).2 = some []) :=
  ⟨by decide, c9_self_assign_empty (Deque.ofList emptyHeap [1, 2]).1
    (Deque.ofList emptyHeap [1, 2]).2 [2, 3] [1, 2] 100 (by decide)⟩

end Sentinel

/-!
The persistent environment of `src/lectures/lec20/src/env.h`: a
singly-linked association list of `shared_ptr` nodes. `env_ptr<V>` is one
pointer `head_`; `extend` allocates a node in front (structural sharing),
`lookup`/`update` scan from the head and signal a missing key with the
`binding_not_found` exception, modelled as `Except.error ()`. Keys
(`Symbol`, an interned string compared by value) are modelled as `String`
and values `V` as `Int`. -/

namespace Islpp

/-- One `env_ptr<V>::node` (env.h:45-54): a key, a value, and the
`shared_ptr` to the rest of the list (`0` = `nullptr`). -/
structure EnvNode where
  key : String
  value : Int
  next : Nat
  deriving DecidableEq, Repr

/-- The node heap: addresses to live nodes, plus the next fresh address.
Nodes are shared (`shared_ptr`), never freed while any `env_ptr` can
reach them; the model never frees. -/
structure EnvHeap where
  mem : List (Nat × EnvNode)
  fresh : Nat
  deriving DecidableEq, Repr

namespace EnvHeap

/-- Read the node at an address. -/
def get (h : EnvHeap) (a : Nat) : Option EnvNode := h.mem.lookup a

/-- Overwrite the node at an address (used by `update`'s in-place
mutation `curr->value = value`, env.h:90). -/
def write (h : EnvHeap) (a : Nat) (nd : EnvNode) : EnvHeap :=
  ⟨(a, nd) :: h.mem, h.fresh⟩

theorem env_get_write_self (h : EnvHeap) (a : Nat) (nd : EnvNode) :
    (h.write a nd).get a = some nd := by
  simp [get, write, List.lookup]

theorem env_get_write_ne (h : EnvHeap) (a b : Nat) (nd : EnvNode)
    (hba : b ≠ a) : (h.write a nd).get b = h.get b := by
  simp [get, write, List.lookup, beq_eq_false_iff_ne.mpr hba]

theorem env_fresh_write (h : EnvHeap) (a : Nat) (nd : EnvNode) :
    (h.write a nd).fresh = h.fresh := rfl

end EnvHeap

/-- An empty node heap whose first usable address is `1` (so `0` can
stand for `nullptr`). -/
def emptyEnvHeap : EnvHeap := ⟨[], 1⟩

/-- `env_ptr<V>` (env.h:17-43): the single data member `head_`. -/
structure env_ptr where
  head_ : Nat
  deriving DecidableEq, Repr

/-- The default constructor (env.h:56-58): `head_{nullptr}`. -/
def emptyEnv : env_ptr := ⟨0⟩

/-- The key of the node at `a` (garbage when dangling). -/
def keyAt (h : EnvHeap) (a : Nat) : String :=
  ((h.get a).getD ⟨"", 0, 0⟩).key

/-- The value of the node at `a`. -/
def valueAt (h : EnvHeap) (a : Nat) : Int :=
  ((h.get a).getD ⟨"", 0, 0⟩).value

/-- The tail pointer of the node at `a`. -/
def nextAt (h : EnvHeap) (a : Nat) : Nat :=
  ((h.get a).getD ⟨"", 0, 0⟩).next

/-- The loop of `lookup` (env.h:64-72): walk `next` from `curr` until
`nullptr`, returning the value of the first node whose key matches, and
throwing `binding_not_found` (modelled `.error ()`) at the end of the
list. `fuel` bounds the walk; a well-formed environment's list is shorter
than its heap's watermark, so the bound is never the reason a result is
returned. -/
def lookupGo (h : EnvHeap) (key : String) : Nat → Nat → Except Unit Int
  | _, 0 => .error ()
  | cur, fuel + 1 =>
    if cur = 0 then .error ()
    else
      match h.get cur with
      | none => .error ()
      | some nd =>
        if nd.key = key then .ok nd.value else lookupGo h key nd.next fuel

/-- `lookup` (env.h:64-72). -/
def env_ptr.lookup (e : env_ptr) (h : EnvHeap) (key : String) :
    Except Unit Int :=
  lookupGo h key e.head_ h.fresh

/-- `extend` (env.h:74-78): one fresh node in front of the current head;
the original environment and every node it reaches are untouched, the new
node's `next` sharing the old list as its tail. -/
def env_ptr.extend (e : env_ptr) (h : EnvHeap) (key : String) (v : Int) :
    env_ptr × EnvHeap :=
  (⟨h.fresh⟩, ⟨(h.fresh, ⟨key, v, e.head_⟩) :: h.mem, h.fresh + 1⟩)

/-- The loop of `update` (env.h:85-96): walk like `lookup`; at the first
key match overwrite that node's value in place and return; throw
`binding_not_found` at the end of the list. On failure no node is
written. -/
def updateGo (h : EnvHeap) (key : String) (v : Int) :
    Nat → Nat → Except Unit EnvHeap
  | _, 0 => .error ()
  | cur, fuel + 1 =>
    if cur = 0 then .error ()
    else
      match h.get cur with
      | none => .error ()
      | some nd =>
        if nd.key = key then .ok (h.write cur ⟨nd.key, v, nd.next⟩)
        else updateGo h key v nd.next fuel

/-- `update` (env.h:85-96). -/
def env_ptr.update (e : env_ptr) (h : EnvHeap) (key : String) (v : Int) :
    Except Unit EnvHeap :=
  updateGo h key v e.head_ h.fresh

/-- The association-list shape of an environment: `as` lists the node
addresses from the head to `nullptr`, each pointer equal to the next
listed address. -/
def isEnvChainB (h : EnvHeap) : Nat → List Nat → Bool
  | p, [] => decide (p = 0)
  | p, a :: as =>
    decide (p = a) &&
      (match h.get a with
       | none => false
       | some nd => isEnvChainB h nd.next as)

/-- Environment well-formedness: the reachable nodes are distinct live
non-null addresses below the watermark and form a null-terminated
chain. -/
def envWFB (e : env_ptr) (h : EnvHeap) (as : List Nat) : Bool :=
  decide (0 < h.fresh) &&
  decide (∀ a ∈ as, 0 < a ∧ a < h.fresh) &&
  decide (as.Nodup) &&
  isEnvChainB h e.head_ as

theorem envWFB_iff (e : env_ptr) (h : EnvHeap) (as : List Nat) :
    envWFB e h as = true ↔
      (0 < h.fresh ∧ (∀ a ∈ as, 0 < a ∧ a < h.fresh) ∧ as.Nodup ∧
       isEnvChainB h e.head_ as = true) := by
  simp [envWFB, and_assoc]

/-- The address of the nearest (newest-first) binding of a key along a
node list, if any. -/
def firstK (h : EnvHeap) (k : String) : List Nat → Option Nat
  | [] => none
  | a :: as => if keyAt h a = k then some a else firstK h k as

/-- The binding list an environment represents, newest binding first. -/
def bindingsOf (h : EnvHeap) (as : List Nat) : List (String × Int) :=
  as.map (fun a => (keyAt h a, valueAt h a))

/-- Modelled from the spec: `lookup` on the abstract binding list -
"returns the value of the nearest binding of k, scanning
newest-to-oldest", `none` when no binding of `k` exists. -/
def specLookup (bs : List (String × Int)) (k : String) : Option Int :=
  (bs.find? (fun p => decide (p.1 = k))).map (fun p => p.2)

theorem firstK_mem (h : EnvHeap) (k : String) :
    ∀ (as : List Nat) (a : Nat), firstK h k as = some a →
      a ∈ as ∧ keyAt h a = k := by
  intro as
  induction as with
  | nil => intro a hfk; simp [firstK] at hfk
  | cons b as ih =>
    intro a hfk
    by_cases hb : keyAt h b = k
    · simp only [firstK, hb, if_pos] at hfk
      cases hfk
      exact ⟨List.mem_cons_self _ _, hb⟩
    · simp only [firstK, hb, if_neg, if_false] at hfk
      obtain ⟨hm, hk⟩ := ih a hfk
      exact ⟨List.mem_cons_of_mem _ hm, hk⟩

theorem firstK_none_iff (h : EnvHeap) (k : String) :
    ∀ (as : List Nat), firstK h k as = none ↔ ∀ a ∈ as, keyAt h a ≠ k := by
  intro as
  induction as with
  | nil => simp [firstK]
  | cons b as ih =>
    by_cases hb : keyAt h b = k
    · simp [firstK, hb]
    · simp [firstK, hb, ih]

theorem specLookup_eq_firstK (h : EnvHeap) (k : String) :
    ∀ (as : List Nat),
      specLookup (bindingsOf h as) k = (firstK h k as).map (valueAt h) := by
  intro as
  induction as with
  | nil => rfl
  | cons b as ih =>
    by_cases hb : keyAt h b = k
    · simp [specLookup, bindingsOf, firstK, List.find?, hb]
    · simp only [bindingsOf, List.map_cons, specLookup, List.find?,
        decide_eq_true_eq] at ih ⊢
      simp only [decide_eq_false hb]
      simp only [firstK, hb, if_false]
      exact ih

/-- Chains only look at their own nodes. -/
theorem isEnvChainB_congr (h h' : EnvHeap) :
    ∀ (as : List Nat) (p : Nat), (∀ a ∈ as, h'.get a = h.get a) →
      isEnvChainB h' p as = isEnvChainB h p as := by
  intro as
  induction as with
  | nil => intro p _; rfl
  | cons a as ih =>
    intro p hsame
    simp only [isEnvChainB, hsame a (List.mem_cons_self a as)]
    cases h.get a with
    | none => rfl
    | some nd =>
      simp only [ih nd.next (fun m hm => hsame m (List.mem_cons_of_mem a hm))]

/-- `firstK` only looks at keys, which a value overwrite preserves. -/
theorem firstK_write_value (h : EnvHeap) (k : String) (a : Nat)
    (nd : EnvNode) (v : Int) (ha : h.get a = some nd) :
    ∀ (as : List Nat),
      firstK (h.write a ⟨nd.key, v, nd.next⟩) k as = firstK h k as := by
  intro as
  induction as with
  | nil => rfl
  | cons b as ih =>
    have hkey : keyAt (h.write a ⟨nd.key, v, nd.next⟩) b = keyAt h b := by
      by_cases hb : b = a
      · subst hb
        simp [keyAt, EnvHeap.env_get_write_self, ha]
      · simp [keyAt, EnvHeap.env_get_write_ne _ _ _ _ hb]
    simp only [firstK, hkey, ih]

/-- A value overwrite of a chain node preserves the chain shape. -/
theorem isEnvChainB_write_value (h : EnvHeap) (a : Nat) (nd : EnvNode)
    (v : Int) (ha : h.get a = some nd) :
    ∀ (as : List Nat) (p : Nat), isEnvChainB h p as = true →
      isEnvChainB (h.write a ⟨nd.key, v, nd.next⟩) p as = true := by
  intro as
  induction as with
  | nil => intro p hc; exact hc
  | cons b as ih =>
    intro p hc
    simp only [isEnvChainB, Bool.and_eq_true, decide_eq_true_eq] at hc ⊢
    refine ⟨hc.1, ?_⟩
    by_cases hb : b = a
    · subst hb
      rw [EnvHeap.env_get_write_self]
      rw [ha] at hc
      exact ih nd.next hc.2
    · rw [EnvHeap.env_get_write_ne _ _ _ _ hb]
      cases hg : h.get b with
      | none => rw [hg] at hc; exact absurd hc.2 (by simp)
      | some nb =>
        rw [hg] at hc
        exact ih nb.next hc.2

/-- The scan of `lookup` along a well-shaped chain returns the nearest
binding's value, and `binding_not_found` exactly when no node binds the
key. -/
theorem lookupGo_spec (h : EnvHeap) (k : String) :
    ∀ (as : List Nat) (p : Nat) (fuel : Nat),
      isEnvChainB h p as = true → (∀ a ∈ as, 0 < a) →
      as.length < fuel →
      lookupGo h k p fuel =
        (match firstK h k as with
         | some a => .ok (valueAt h a)
         | none => .error ()) := by
  intro as
  induction as with
  | nil =>
    intro p fuel hc _ hfuel
    have hp : p = 0 := by simpa [isEnvChainB] using hc
    cases fuel with
    | zero => omega
    | succ f => simp [lookupGo, hp, firstK]
  | cons a as ih =>
    intro p fuel hc hpos hfuel
    simp only [isEnvChainB, Bool.and_eq_true, decide_eq_true_eq] at hc
    obtain ⟨hpa, hrest⟩ := hc
    subst hpa
    cases hg : h.get p with
    | none => rw [hg] at hrest; exact absurd hrest (by simp)
    | some nd =>
      rw [hg] at hrest
      cases fuel with
      | zero => simp at hfuel
      | succ f =>
        have ha0 : p ≠ 0 :=
          Nat.pos_iff_ne_zero.mp (hpos p (List.mem_cons_self p as))
        rw [lookupGo, if_neg ha0, hg]
        by_cases hk : nd.key = k
        · have hkey : keyAt h p = k := by simp [keyAt, hg, hk]
          simp [hk, firstK, hkey, valueAt, hg]
        · have hkey : ¬ (keyAt h p = k) := by simp [keyAt, hg, hk]
          simp only [hk, if_false, firstK, hkey]
          exact ih nd.next f hrest
            (fun m hm => hpos m (List.mem_cons_of_mem p hm))
            (by simpa using Nat.lt_of_succ_lt_succ hfuel)

/-- The scan of `update` along a well-shaped chain overwrites the nearest
binding's node in place, and throws exactly when no node binds the key;
on failure no write is performed. -/
theorem updateGo_spec (h : EnvHeap) (k : String) (v : Int) :
    ∀ (as : List Nat) (p : Nat) (fuel : Nat),
      isEnvChainB h p as = true → (∀ a ∈ as, 0 < a) →
      as.length < fuel →
      updateGo h k v p fuel =
        (match firstK h k as with
         | some a => .ok (h.write a ⟨keyAt h a, v, nextAt h a⟩)
         | none => .error ()) := by
  intro as
  induction as with
  | nil =>
    intro p fuel hc _ hfuel
    have hp : p = 0 := by simpa [isEnvChainB] using hc
    cases fuel with
    | zero => omega
    | succ f => simp [updateGo, hp, firstK]
  | cons a as ih =>
    intro p fuel hc hpos hfuel
    simp only [isEnvChainB, Bool.and_eq_true, decide_eq_true_eq] at hc
    obtain ⟨hpa, hrest⟩ := hc
    subst hpa
    cases hg : h.get p with
    | none => rw [hg] at hrest; exact absurd hrest (by simp)
    | some nd =>
      rw [hg] at hrest
      cases fuel with
      | zero => simp at hfuel
      | succ f =>
        have ha0 : p ≠ 0 :=
          Nat.pos_iff_ne_zero.mp (hpos p (List.mem_cons_self p as))
        rw [updateGo, if_neg ha0, hg]
        by_cases hk : nd.key = k
        · have hkey : keyAt h p = k := by simp [keyAt, hg, hk]
          simp [hk, firstK, hkey, keyAt, nextAt, hg]
        · have hkey : ¬ (keyAt h p = k) := by simp [keyAt, hg, hk]
          simp only [hk, if_false, firstK, hkey]
          exact ih nd.next f hrest
            (fun m hm => hpos m (List.mem_cons_of_mem p hm))
            (by simpa using Nat.lt_of_succ_lt_succ hfuel)

/-- Distinct positive addresses below a watermark number fewer than the
watermark. -/
theorem length_lt_fresh (as : List Nat) (f : Nat) (h0 : 0 < f)
    (hnd : as.Nodup) (hb : ∀ a ∈ as, 0 < a ∧ a < f) : as.length < f := by
  have hsub : as.toFinset ⊆ Finset.Ico 1 f := by
    intro a ha
    rw [List.mem_toFinset] at ha
    rw [Finset.mem_Ico]
    exact ⟨(hb a ha).1, (hb a ha).2⟩
  have hcard := Finset.card_le_card hsub
  rw [List.toFinset_card_of_nodup hnd, Nat.card_Ico] at hcard
  omega

/-- `extend` preserves well-formedness, prepending the fresh node; the
old nodes are untouched. -/
theorem wf_extend (e : env_ptr) (h : EnvHeap) (as : List Nat) (k : String)
    (v : Int) (hwf : envWFB e h as = true) :
    envWFB (e.extend h k v).1 (e.extend h k v).2 (h.fresh :: as) = true ∧
    (e.extend h k v).2.get h.fresh = some ⟨k, v, e.head_⟩ ∧
    (∀ b, b ≠ h.fresh → (e.extend h k v).2.get b = h.get b) := by
  obtain ⟨h0, hb, hnd, hch⟩ := (envWFB_iff e h as).mp hwf
  have hget_new : (e.extend h k v).2.get h.fresh = some ⟨k, v, e.head_⟩ := by
    simp [env_ptr.extend, EnvHeap.get, List.lookup]
  have hget_old : ∀ b, b ≠ h.fresh → (e.extend h k v).2.get b = h.get b := by
    intro b hbf
    simp [env_ptr.extend, EnvHeap.get, List.lookup,
      beq_eq_false_iff_ne.mpr hbf]
  refine ⟨?_, hget_new, hget_old⟩
  rw [envWFB_iff]
  have hfresh2 : (e.extend h k v).2.fresh = h.fresh + 1 := rfl
  have hnotin : h.fresh ∉ as := fun hm => lt_irrefl _ (hb _ hm).2
  refine ⟨by rw [hfresh2]; omega, ?_, ?_, ?_⟩
  · intro a ha
    rw [hfresh2]
    rcases List.mem_cons.mp ha with ha | ha
    · subst ha; omega
    · exact ⟨(hb a ha).1, Nat.lt_succ_of_lt (hb a ha).2⟩
  · exact List.nodup_cons.mpr ⟨hnotin, hnd⟩
  · simp only [isEnvChainB, Bool.and_eq_true, decide_eq_true_eq]
    refine ⟨rfl, ?_⟩
    rw [hget_new]
    show isEnvChainB (e.extend h k v).2 e.head_ as = true
    rw [isEnvChainB_congr h (e.extend h k v).2 as e.head_
      (fun a ha => hget_old a (fun hEq => hnotin (hEq ▸ ha)))]
    exact hch

/-- `firstK` only looks at the listed cells. -/
theorem firstK_congr (h h' : EnvHeap) (k : String) :
    ∀ (as : List Nat), (∀ a ∈ as, h'.get a = h.get a) →
      firstK h' k as = firstK h k as := by
  intro as
  induction as with
  | nil => intro _; rfl
  | cons b as ih =>
    intro hsame
    have hkey : keyAt h' b = keyAt h b := by
      simp [keyAt, hsame b (List.mem_cons_self b as)]
    simp only [firstK, hkey,
      ih (fun m hm => hsame m (List.mem_cons_of_mem b hm))]

/-- Every address of a chain holds a live node. -/
theorem chain_get_mem (h : EnvHeap) :
    ∀ (as : List Nat) (p : Nat), isEnvChainB h p as = true →
      ∀ a ∈ as, ∃ nd, h.get a = some nd := by
  intro as
  induction as with
  | nil => intro p _ a ha; simp at ha
  | cons b as ih =>
    intro p hc a ha
    simp only [isEnvChainB, Bool.and_eq_true, decide_eq_true_eq] at hc
    obtain ⟨hpb, hrest⟩ := hc
    cases hg : h.get b with
    | none => rw [hg] at hrest; exact absurd hrest (by simp)
    | some nd =>
      rw [hg] at hrest
      rcases List.mem_cons.mp ha with ha | ha
      · exact ⟨nd, ha ▸ hg⟩
      · exact ih nd.next hrest a ha

/-- `extend` changes no observation of the original environment: every
`lookup` through the old handle returns what it returned before. -/
theorem extend_lookup_frame (e : env_ptr) (h : EnvHeap) (as : List Nat)
    (k : String) (v : Int) (k' : String) (hwf : envWFB e h as = true) :
    e.lookup (e.extend h k v).2 k' = e.lookup h k' := by
  obtain ⟨h0, hb, hnd, hch⟩ := (envWFB_iff e h as).mp hwf
  have hpos : ∀ a ∈ as, 0 < a := fun a ha => (hb a ha).1
  have hflen : as.length < h.fresh := length_lt_fresh as h.fresh h0 hnd hb
  have hnotin : h.fresh ∉ as := fun hm => lt_irrefl _ (hb _ hm).2
  obtain ⟨_, _, hgetold⟩ := wf_extend e h as k v hwf
  have hold : ∀ a ∈ as, (e.extend h k v).2.get a = h.get a :=
    fun a ha => hgetold a (fun hEq => hnotin (hEq ▸ ha))
  have hch2 : isEnvChainB (e.extend h k v).2 e.head_ as = true := by
    rw [isEnvChainB_congr h _ as e.head_ hold]
    exact hch
  have hlook2 := lookupGo_spec (e.extend h k v).2 k' as e.head_
    (e.extend h k v).2.fresh hch2 hpos
    (by rw [show (e.extend h k v).2.fresh = h.fresh + 1 from rfl]; omega)
  have hlook1 := lookupGo_spec h k' as e.head_ h.fresh hch hpos hflen
  rw [env_ptr.lookup, env_ptr.lookup, hlook2, hlook1,
    firstK_congr h (e.extend h k v).2 k' as hold]
  cases hf : firstK h k' as with
  | none => rfl
  | some a =>
    have ha : a ∈ as := (firstK_mem h k' as a hf).1
    simp [valueAt, hold a ha]

/-- C8: under the environment's reachable-node shape, `lookup(k)` returns
exactly what newest-to-oldest scanning of the binding list gives — the
nearest binding's value — and throws `binding_not_found` if and only if
no binding of `k` exists; `update(k, v)` overwrites the value of the
nearest existing binding's node in place (leaving its key and tail
pointer intact) and throws if and only if no binding exists, performing
no write in that case so the environment is unchanged; and
`extend(k, v)` does not mutate the receiver — it returns a new handle
whose single fresh node holds the binding and whose tail pointer is the
old head, the old heap reused as the new heap's tail, the old handle
observing all its lookups unchanged. -/
theorem c8_env_ops (e : env_ptr) (h : EnvHeap) (as : List Nat)
    (k k' : String) (v : Int) (hwf : envWFB e h as = true) :
    (e.lookup h k =
      (match specLookup (bindingsOf h as) k with
       | some w => .ok w
       | none => .error ())) ∧
    (e.lookup h k = .error () ↔ ∀ a ∈ as, keyAt h a ≠ k) ∧
    (e.update h k v =
      (match firstK h k as with
       | some a => .ok (h.write a ⟨keyAt h a, v, nextAt h a⟩)
       | none => .error ())) ∧
    (e.update h k v = .error () ↔ e.lookup h k = .error ()) ∧
    ((e.extend h k v).1.head_ = h.fresh ∧
     (e.extend h k v).2.get h.fresh = some ⟨k, v, e.head_⟩ ∧
     (e.extend h k v).2.mem = (h.fresh, ⟨k, v, e.head_⟩) :: h.mem ∧
     envWFB (e.extend h k v).1 (e.extend h k v).2 (h.fresh :: as) = true ∧
     e.lookup (e.extend h k v).2 k' = e.lookup h k') := by
  obtain ⟨h0, hb, hnd, hch⟩ := (envWFB_iff e h as).mp hwf
  have hpos : ∀ a ∈ as, 0 < a := fun a ha => (hb a ha).1
  have hflen : as.length < h.fresh := length_lt_fresh as h.fresh h0 hnd hb
  have hlook := lookupGo_spec h k as e.head_ h.fresh hch hpos hflen
  have hupd := updateGo_spec h k v as e.head_ h.fresh hch hpos hflen
  obtain ⟨hwf2, hgetnew, _⟩ := wf_extend e h as k v hwf
  refine ⟨?_, ?_, ?_, ?_, rfl, hgetnew, rfl, hwf2,
    extend_lookup_frame e h as k v k' hwf⟩
  · rw [env_ptr.lookup, hlook, specLookup_eq_firstK h k as]
    cases hf : firstK h k as with
    | none => rfl
    | some a => rfl
  · rw [env_ptr.lookup, hlook, ← firstK_none_iff h k as]
    cases hf : firstK h k as with
    | none => simp
    | some a => simp
  · rw [env_ptr.update, hupd]
  · rw [env_ptr.update, env_ptr.lookup, hupd, hlook]
    cases hf : firstK h k as with
    | none => simp
    | some a => simp

/-- C8 witness: the single-binding environment built by
`emptyEnv.extend "x" 1` on the empty node heap, queried and updated at
`"x"` and re-extended with `"y"`. -/
theorem c8_env_ops_witness :
    envWFB (emptyEnv.extend emptyEnvHeap "x" 1).1
      (emptyEnv.extend emptyEnvHeap "x" 1).2 [1] = true ∧
    (((emptyEnv.extend emptyEnvHeap "x" 1).1.lookup
        (emptyEnv.extend emptyEnvHeap "x" 1).2 "x" =
      (match specLookup (bindingsOf (emptyEnv.extend emptyEnvHeap "x" 1).2
          [1]) "x" with
       | some w => .ok w
       | none => .error ())) ∧
     ((emptyEnv.extend emptyEnvHeap "x" 1).1.lookup
        (emptyEnv.extend emptyEnvHeap "x" 1).2 "x" = .error () ↔
       ∀ a ∈ [1], keyAt (emptyEnv.extend emptyEnvHeap "x" 1).2 a ≠ "x") ∧
     ((emptyEnv.extend emptyEnvHeap "x" 1).1.update
        (emptyEnv.extend emptyEnvHeap "x" 1).2 "x" 5 =
      (match firstK (emptyEnv.extend emptyEnvHeap "x" 1).2 "x" [1] with
       | some a => .ok ((emptyEnv.extend emptyEnvHeap "x" 1).2.write a
           ⟨keyAt (emptyEnv.extend emptyEnvHeap "x" 1).2 a, 5,
            nextAt (emptyEnv.extend emptyEnvHeap "x" 1).2 a⟩)
       | none => .error ())) ∧
     ((emptyEnv.extend emptyEnvHeap "x" 1).1.update
        (emptyEnv.extend emptyEnvHeap "x" 1).2 "x" 5 = .error () ↔
       (emptyEnv.extend emptyEnvHeap "x" 1).1.lookup
        (emptyEnv.extend emptyEnvHeap "x" 1).2 "x" = .error ()) ∧
     (((emptyEnv.extend emptyEnvHeap "x" 1).1.extend
         (emptyEnv.extend emptyEnvHeap "x" 1).2 "x" 5).1.head_ =
        (emptyEnv.extend emptyEnvHeap "x" 1).2.fresh ∧
      ((emptyEnv.extend emptyEnvHeap "x" 1).1.extend
         (emptyEnv.extend emptyEnvHeap "x" 1).2 "x" 5).2.get
        (emptyEnv.extend emptyEnvHeap "x" 1).2.fresh =
        some ⟨"x", 5, (emptyEnv.extend emptyEnvHeap "x" 1).1.head_⟩ ∧
      ((emptyEnv.extend emptyEnvHeap "x" 1).1.extend
         (emptyEnv.extend emptyEnvHeap "x" 1).2 "x" 5).2.mem =
        ((emptyEnv.extend emptyEnvHeap "x" 1).2.fresh,
          ⟨"x", 5, (emptyEnv.extend emptyEnvHeap "x" 1).1.head_⟩) ::
          (emptyEnv.extend emptyEnvHeap "x" 1).2.mem ∧
      envWFB ((emptyEnv.extend emptyEnvHeap "x" 1).1.extend
          (emptyEnv.extend emptyEnvHeap "x" 1).2 "x" 5).1
        ((emptyEnv.extend emptyEnvHeap "x" 1).1.extend
          (emptyEnv.extend emptyEnvHeap "x" 1).2 "x" 5).2
        ((emptyEnv.extend emptyEnvHeap "x" 1).2.fresh :: [1]) = true ∧
      (emptyEnv.extend emptyEnvHeap "x" 1).1.lookup
        ((emptyEnv.extend emptyEnvHeap "x" 1).1.extend
          (emptyEnv.extend emptyEnvHeap "x" 1).2 "x" 5).2 "z" =
        (emptyEnv.extend emptyEnvHeap "x" 1).1.lookup
          (emptyEnv.extend emptyEnvHeap "x" 1).2 "z")) :=
  ⟨by decide, c8_env_ops (emptyEnv.extend emptyEnvHeap "x" 1).1
    (emptyEnv.extend emptyEnvHeap "x" 1).2 [1] "x" "z" 5 (by decide)⟩

/-- C10: handles alias their shared tail under `update`. If
`e2 = e1.extend(k2, v2)` and the nearest binding of `k ≠ k2` lies in the
shared tail (at node `a`, the nearest binding of `k` in `e1`), then
`e2.update(k, w)` succeeds by overwriting that very node in place, and
afterwards `e1.lookup(k)` returns `w` — the mutation is visible through
the old handle — while `extend` itself changed no `lookup` observable
through `e1`. -/
theorem c10_env_aliasing (e1 : env_ptr) (h : EnvHeap) (as : List Nat)
    (k k2 k' : String) (v2 w : Int) (a : Nat)
    (hwf : envWFB e1 h as = true) (hkk : k ≠ k2)
    (hfind : firstK h k as = some a) :
    (e1.extend h k2 v2).1.update (e1.extend h k2 v2).2 k w =
      .ok ((e1.extend h k2 v2).2.write a ⟨keyAt h a, w, nextAt h a⟩) ∧
    e1.lookup ((e1.extend h k2 v2).2.write a
      ⟨keyAt h a, w, nextAt h a⟩) k = .ok w ∧
    e1.lookup (e1.extend h k2 v2).2 k' = e1.lookup h k' := by
  obtain ⟨h0, hb, hnd, hch⟩ := (envWFB_iff e1 h as).mp hwf
  have hpos : ∀ x ∈ as, 0 < x := fun x hx => (hb x hx).1
  have hnotin : h.fresh ∉ as := fun hm => lt_irrefl _ (hb _ hm).2
  obtain ⟨hamem, hakey⟩ := firstK_mem h k as a hfind
  have haf : a ≠ h.fresh := fun hEq => hnotin (hEq ▸ hamem)
  obtain ⟨hwf2, hgetnew, hgetold⟩ := wf_extend e1 h as k2 v2 hwf
  have hold : ∀ x ∈ as, (e1.extend h k2 v2).2.get x = h.get x :=
    fun x hx => hgetold x (fun hEq => hnotin (hEq ▸ hx))
  obtain ⟨h02, hb2, hnd2, hch2⟩ := (envWFB_iff _ _ _).mp hwf2
  have hpos2 : ∀ x ∈ h.fresh :: as, 0 < x := fun x hx => (hb2 x hx).1
  have hflen2 : (h.fresh :: as).length < (e1.extend h k2 v2).2.fresh :=
    length_lt_fresh _ _ h02 hnd2 hb2
  obtain ⟨nd, hnd_a⟩ := chain_get_mem h as e1.head_ hch a hamem
  have hnd_a2 : (e1.extend h k2 v2).2.get a = some nd := by
    rw [hold a hamem]; exact hnd_a
  have hupd := updateGo_spec (e1.extend h k2 v2).2 k w (h.fresh :: as)
    (e1.extend h k2 v2).1.head_ (e1.extend h k2 v2).2.fresh hch2 hpos2
    hflen2
  have hkeyfresh : keyAt (e1.extend h k2 v2).2 h.fresh = k2 := by
    simp [keyAt, hgetnew]
  have hfk2 : firstK (e1.extend h k2 v2).2 k (h.fresh :: as) = some a := by
    rw [firstK, if_neg (by rw [hkeyfresh]; exact fun hEq => hkk hEq.symm),
      firstK_congr h _ k as hold]
    exact hfind
  have hkeya : keyAt (e1.extend h k2 v2).2 a = keyAt h a := by
    simp [keyAt, hold a hamem]
  have hnexta : nextAt (e1.extend h k2 v2).2 a = nextAt h a := by
    simp [keyAt, nextAt, hold a hamem]
  constructor
  · rw [env_ptr.update, hupd, hfk2, ← hkeya, ← hnexta]
  constructor
  · -- lookup after the in-place overwrite, through the old handle
    have hnode_eq : (⟨keyAt h a, w, nextAt h a⟩ : EnvNode) =
        ⟨nd.key, w, nd.next⟩ := by
      simp [keyAt, nextAt, hnd_a]
    rw [hnode_eq]
    have hch2e1 : isEnvChainB (e1.extend h k2 v2).2 e1.head_ as = true := by
      rw [isEnvChainB_congr h _ as e1.head_ hold]
      exact hch
    have hch3 := isEnvChainB_write_value (e1.extend h k2 v2).2 a nd w
      hnd_a2 as e1.head_ hch2e1
    have hfresh3 : ((e1.extend h k2 v2).2.write a
        ⟨nd.key, w, nd.next⟩).fresh = h.fresh + 1 := rfl
    have hlook3 := lookupGo_spec ((e1.extend h k2 v2).2.write a
        ⟨nd.key, w, nd.next⟩) k as e1.head_
      ((e1.extend h k2 v2).2.write a ⟨nd.key, w, nd.next⟩).fresh hch3 hpos
      (by rw [hfresh3]
          exact Nat.lt_succ_of_lt (length_lt_fresh as h.fresh h0 hnd hb))
    rw [env_ptr.lookup, hlook3]
    have hfk3 : firstK ((e1.extend h k2 v2).2.write a
        ⟨nd.key, w, nd.next⟩) k as = some a := by
      rw [firstK_write_value (e1.extend h k2 v2).2 k a nd w hnd_a2 as,
        firstK_congr h _ k as hold]
      exact hfind
    rw [hfk3]
    simp [valueAt, EnvHeap.env_get_write_self]
  · exact extend_lookup_frame e1 h as k2 v2 k' hwf

/-- C10 witness: `e1` binds `"x" ↦ 1`; `e2 = e1.extend("y", 2)`;
`e2.update("x", 42)` mutates the shared node (address 1) in place and
`e1.lookup("x")` then returns 42; the extension itself left `e1`'s
lookups unchanged. -/
theorem c10_env_aliasing_witness :
    envWFB (emptyEnv.extend emptyEnvHeap "x" 1).1
      (emptyEnv.extend emptyEnvHeap "x" 1).2 [1] = true ∧
    "x" ≠ "y" ∧
    firstK (emptyEnv.extend emptyEnvHeap "x" 1).2 "x" [1] = some 1 ∧
    (((emptyEnv.extend emptyEnvHeap "x" 1).1.extend
        (emptyEnv.extend emptyEnvHeap "x" 1).2 "y" 2).1.update
       ((emptyEnv.extend emptyEnvHeap "x" 1).1.extend
        (emptyEnv.extend emptyEnvHeap "x" 1).2 "y" 2).2 "x" 42 =
      .ok ((((emptyEnv.extend emptyEnvHeap "x" 1).1.extend
        (emptyEnv.extend emptyEnvHeap "x" 1).2 "y" 2).2).write 1
        ⟨keyAt (emptyEnv.extend emptyEnvHeap "x" 1).2 1, 42,
         nextAt (emptyEnv.extend emptyEnvHeap "x" 1).2 1⟩) ∧
     (emptyEnv.extend emptyEnvHeap "x" 1).1.lookup
       ((((emptyEnv.extend emptyEnvHeap "x" 1).1.extend
         (emptyEnv.extend emptyEnvHeap "x" 1).2 "y" 2).2).write 1
         ⟨keyAt (emptyEnv.extend emptyEnvHeap "x" 1).2 1, 42,
          nextAt (emptyEnv.extend emptyEnvHeap "x" 1).2 1⟩) "x" =
       .ok 42 ∧
     (emptyEnv.extend emptyEnvHeap "x" 1).1.lookup
       (((emptyEnv.extend emptyEnvHeap "x" 1).1.extend
        (emptyEnv.extend emptyEnvHeap "x" 1).2 "y" 2)).2 "x" =
       (emptyEnv.extend emptyEnvHeap "x" 1).1.lookup
        (emptyEnv.extend emptyEnvHeap "x" 1).2 "x") :=
  ⟨by decide, by decide, by decide,
    c10_env_aliasing (emptyEnv.extend emptyEnvHeap "x" 1).1
      (emptyEnv.extend emptyEnvHeap "x" 1).2 [1] "x" "y" "x" 2 42 1
      (by decide) (by decide) (by decide)⟩

end Islpp
